import Mathlib

/-! # middleware-for-sealdice: the outbound command interceptor of middleware-a

A shallow embedding of `src/middleware-a/main.go`: the inline markup rewriter
`rewriteCQMediaInText`, the resolver `uploadViaB`, `escapeCommaMaybe` and the
command interceptor `rewriteIfUpload`, together with the parts of Go's standard
library they run on (`strings`, `regexp` for the one pattern used, `encoding/json`,
`strconv` for float64, `path/filepath.Base`).

Conventions.
* A Go `string` / `[]byte` holding text is a `List Char` (`Str`): frames are taken to be
  valid UTF-8, so a rune is a `Char`.
* Everything the program reads from outside its own memory is a field of `World`: the answer
  of the upload endpoint and the file system, the result of `url.Parse`, and the order in
  which Go ranges over a map.  Every call site passes a `tick`, so that two calls with the
  same arguments may be answered differently.
* A Go run-time panic is the error case of `Except Panic`.
-/

set_option autoImplicit false

namespace Middleware

/-- Text: a Go string of valid UTF-8, one `Char` per rune. -/
abbrev Str := List Char

/-! ## strings -/

/-- Remove `pre` from the head of `s` when `s` starts with it. -/
def stripPre : Str → Str → Option Str
  | [], s => some s
  | _ :: _, [] => none
  | p :: ps, c :: cs => if p = c then stripPre ps cs else none

/-- Go `strings.HasPrefix(s, pre)`. -/
def HasPrefix (s pre : Str) : Bool := (stripPre pre s).isSome

/-- Go `strings.HasPrefix(s, "http://") || strings.HasPrefix(s, "https://")`. -/
def isHTTP (s : Str) : Bool := HasPrefix s "http://".toList || HasPrefix s "https://".toList

/-- Go `unicode.IsSpace`. -/
def isSpace (c : Char) : Bool :=
  let n := c.toNat
  (9 ≤ n && n ≤ 13) || n = 32 || n = 0x85 || n = 0xA0 || n = 0x1680 ||
  (0x2000 ≤ n && n ≤ 0x200A) || n = 0x2028 || n = 0x2029 || n = 0x202F ||
  n = 0x205F || n = 0x3000

/-- Go `strings.TrimSpace`. -/
def TrimSpace (s : Str) : Str :=
  ((s.dropWhile isSpace).reverse.dropWhile isSpace).reverse

/-- Go `strings.TrimLeft(s, ",")`. -/
def TrimLeftComma (s : Str) : Str := s.dropWhile (fun c => c = ',')

/-- Go `strings.Split(s, sep)` for a one-character separator. -/
def Split (sep : Char) : Str → List Str
  | [] => [[]]
  | c :: cs =>
    if c = sep then [] :: Split sep cs
    else match Split sep cs with
      | [] => [[c]]
      | h :: t => (c :: h) :: t

/-- The text before and after the first `sep` of `s`, when there is one. -/
def cut (sep : Char) : Str → Option (Str × Str)
  | [] => none
  | c :: cs =>
    if c = sep then some ([], cs)
    else match cut sep cs with
      | none => none
      | some (a, b) => some (c :: a, b)

/-- Go `strings.SplitN(s, sep, 2)` for a one-character separator. -/
def SplitN2 (sep : Char) (s : Str) : List Str :=
  match cut sep s with
  | none => [s]
  | some (a, b) => [a, b]

/-- Go `strings.ReplaceAll(text, ",", "%2C")`. -/
def escapeCommaMaybe : Str → Str
  | [] => []
  | c :: cs => if c = ',' then '%' :: '2' :: 'C' :: escapeCommaMaybe cs else c :: escapeCommaMaybe cs

/-- Go `strings.ReplaceAll(text, "%2C", ",")`: the inverse substitution, used to read an
escaped value back. -/
def unescapeComma : Str → Str
  | [] => []
  | '%' :: '2' :: 'C' :: rest => ',' :: unescapeComma rest
  | c :: cs => c :: unescapeComma cs

/-! ## map[string]string -/

/-- A Go `map[string]string`: an association list without repeated keys. -/
abbrev StrMap := List (Str × Str)

/-- Go `v, ok := m[k]` for a map with string keys. -/
def mapGet? {β : Type} : List (Str × β) → Str → Option β
  | [], _ => none
  | (k, v) :: m, key => if k = key then some v else mapGet? m key

/-- Go `m[k]`, the empty string for a missing key. -/
def mapGet (m : StrMap) (key : Str) : Str := (mapGet? m key).getD []

/-- Go `m[k] = v` for a map with string keys. -/
def mapSet {β : Type} : List (Str × β) → Str → β → List (Str × β)
  | [], key, val => [(key, val)]
  | (k, v) :: m, key, val => if k = key then (k, val) :: m else (k, v) :: mapSet m key val

/-! ## the world outside the process -/

/-- The `Config` of middleware-a. -/
structure Config where
  ListenHTTP : Str
  ListenWSPath : Str
  UpstreamWSURL : Str
  UpstreamAccessToken : Str
  UpstreamUseQueryToken : Bool
  ServerAccessToken : Str
  UploadEndpoint : Str

/-- The `uploadResult` of middleware-a. -/
structure uploadResult where
  URL : Str
  LocalPath : Str
deriving DecidableEq

/-- What the process reads from its environment. -/
structure World where
  /-- `url.Parse(s)`: the `Path` of the parsed URL, `none` when parsing fails. -/
  urlParsePath : Str → Option Str
  /-- The part of `uploadViaB` after the http(s) test (lines 376-512): decoding a `base64://`
  payload or opening the file, the multipart POST to `cfg.UploadEndpoint`, and the decoded
  answer. The first argument is the tick of the call. -/
  upload : Nat → Str → Str → Config → uploadResult × Str
  /-- The order in which `for k, v := range m` visits a map at a given tick. -/
  mapRange : Nat → StrMap → StrMap
  /-- Ranging over a map visits every entry exactly once. -/
  mapRange_perm : ∀ (tick : Nat) (m : StrMap), (mapRange tick m).Perm m

/-! ## path/filepath and uploadViaB -/

/-- Drop the trailing slashes of a path. -/
def stripTrailingSlashes (p : Str) : Str := (p.reverse.dropWhile (fun c => c = '/')).reverse

/-- The text after the last slash of a path. -/
def lastElement (p : Str) : Str := (p.reverse.takeWhile (fun c => c ≠ '/')).reverse

/-- Go `filepath.Base` where the separator is `/` (no volume names). -/
def filepathBase (path : Str) : Str :=
  if path = [] then ['.']
  else
    let p := lastElement (stripTrailingSlashes path)
    if p = [] then ['/'] else p

/-- The resolver `uploadViaB(fileField, name, cfg)`, called at `tick`. -/
def uploadViaB (w : World) (tick : Nat) (fileField name : Str) (cfg : Config) :
    uploadResult × Str :=
  let path := fileField
  if HasPrefix path "http://".toList || HasPrefix path "https://".toList then
    let name :=
      if name = [] then
        match w.urlParsePath path with
        | some upath =>
          let base := filepathBase upath
          if base ≠ [] ∧ base ≠ ['/'] then base else name
        | none => name
      else name
    (⟨path, []⟩, name)
  else w.upload tick path name cfg

/-! ## regexp: the pattern `\[CQ:(image|record)([^\]]*)]` -/

/-- The sub-pattern `([^\]]*)]`: the text up to the first `]`, and the text after it. -/
def untilBracket : Str → Option (Str × Str)
  | [] => none
  | c :: cs =>
    if c = ']' then some ([], cs)
    else match untilBracket cs with
      | none => none
      | some (a, r) => some (c :: a, r)

/-- One alternative of `(image|record)` followed by `([^\]]*)]`. -/
def matchKind (kind : Str) (t : Str) : Option (Str × Str × Str) :=
  match stripPre kind t with
  | none => none
  | some r =>
    match untilBracket r with
    | none => none
    | some (args, rest) => some (kind, args, rest)

/-- The pattern matched at the head of `s`: capture 1, capture 2 and the text after the
match. -/
def matchHere (s : Str) : Option (Str × Str × Str) :=
  match stripPre "[CQ:".toList s with
  | none => none
  | some t =>
    match matchKind "image".toList t with
    | some m => some m
    | none => matchKind "record".toList t

/-- The matched text of a match with the captures `kind` and `args`. -/
def segText (kind args : Str) : Str := "[CQ:".toList ++ kind ++ args ++ [']']

/-- Go `re.FindStringSubmatch(s)`: the leftmost match, as `[m[0], m[1], m[2]]`. -/
def FindStringSubmatch : Str → List Str
  | [] => []
  | c :: cs =>
    match matchHere (c :: cs) with
    | some (kind, args, _) => [segText kind args, kind, args]
    | none => FindStringSubmatch cs

/-- Go `re.ReplaceAllStringFunc(s, f)` with at most `fuel` steps; `f` also receives the
number of characters after the match, which serves as the tick of the call. -/
def ReplaceAllStringFuncAux (f : Nat → Str → Str) : Nat → Str → Str
  | 0, s => s
  | _ + 1, [] => []
  | fuel + 1, c :: cs =>
    match matchHere (c :: cs) with
    | some (kind, args, rest) =>
      f rest.length (segText kind args) ++ ReplaceAllStringFuncAux f fuel rest
    | none => c :: ReplaceAllStringFuncAux f fuel cs

/-- Go `re.ReplaceAllStringFunc(s, f)`: every step consumes a character, so `s.length` steps
are enough. -/
def ReplaceAllStringFunc (s : Str) (f : Nat → Str → Str) : Str :=
  ReplaceAllStringFuncAux f s.length s

/-! ## rewriteCQMediaInText -/

/-- The body of the loop that fills `args` (lines 77-81), for one item `kv`. -/
def setArg (args : StrMap) (kv : Str) : StrMap :=
  if kv = [] then args
  else match SplitN2 '=' kv with
    | [a, b] => mapSet args (TrimSpace a) (TrimSpace b)
    | _ => args

/-- The loop `for _, kv := range strings.Split(strings.TrimLeft(argsStr, ","), ",")` that
fills `args`. -/
def parseArgs (argsStr : Str) : StrMap :=
  (Split ',' (TrimLeftComma argsStr)).foldl setArg []

/-- The loop `for k, v := range args` that writes every attribute but `file`. -/
def writeRest : StrMap → Str
  | [] => []
  | (k, v) :: m =>
    if k = "file".toList then writeRest m
    else [','] ++ k ++ ['='] ++ v ++ writeRest m

/-- The rebuilt segment (lines 101-124). -/
def rebuild (w : World) (tick : Nat) (kind : Str) (args : StrMap) : Str :=
  "[CQ:".toList ++ kind ++
    (match mapGet? args "file".toList with
     | some v => ",file=".toList ++ v
     | none => []) ++
    writeRest (w.mapRange tick args) ++ [']']

/-- The function literal passed to `ReplaceAllStringFunc` (lines 69-125). -/
def rewriteSegment (w : World) (cfg : Config) (tick : Nat) (seg : Str) : Str :=
  match FindStringSubmatch seg with
  | [_, kind, argsStr] =>
    let args := parseArgs argsStr
    if (match mapGet? args "url".toList with
        | some u => isHTTP u
        | none => false) then seg
    else
      let file := mapGet args "file".toList
      if file = [] then seg
      else if isHTTP file then seg
      else
        let r := uploadViaB w tick file (mapGet args "name".toList) cfg
        if r.1.URL = [] then seg
        else
          let args := mapSet args "file".toList (escapeCommaMaybe r.1.URL)
          let args := if r.2 ≠ [] then mapSet args "name".toList r.2 else args
          rebuild w tick kind args
  | _ => seg

/-- The markup rewriter `rewriteCQMediaInText(s, cfg)`. -/
def rewriteCQMediaInText (w : World) (s : Str) (cfg : Config) : Str :=
  ReplaceAllStringFunc s (rewriteSegment w cfg)

/-! ## strconv: float64 and int64 -/

/-- A finite float64, `(-1)^neg * mant * 2^exp`, with `mant` odd, or `mant = 0` and
`exp = 0` for a zero. -/
structure F64 where
  neg : Bool
  mant : Nat
  exp : Int
deriving DecidableEq

/-- Move the factors two of `m` into the exponent (at most `fuel` of them). -/
def stripTwos : Nat → Nat → Int → Nat × Int
  | 0, m, e => (m, e)
  | fuel + 1, m, e => if m ≠ 0 ∧ m % 2 = 0 then stripTwos fuel (m / 2) (e + 1) else (m, e)

/-- The float64 `(-1)^neg * m * 2^e` in normal form. -/
def F64.norm (neg : Bool) (m : Nat) (e : Int) : F64 :=
  if m = 0 then ⟨neg, 0, 0⟩
  else let r := stripTwos m m e
    ⟨neg, r.1, r.2⟩

/-- The float64 of an integer that needs no rounding. -/
def F64.ofInt (i : Int) : F64 := F64.norm (decide (i < 0)) i.natAbs 0

/-- The fraction `num / den` of a positive `a * b^e`. -/
def scaled (a b : Nat) (e : Int) : Nat × Nat :=
  if 0 ≤ e then (a * b ^ e.toNat, 1) else (a, b ^ (-e).toNat)

/-- The binary logarithm of `n`, rounded down, in at most `fuel` halvings. -/
def ilog2 : Nat → Nat → Nat
  | 0, _ => 0
  | fuel + 1, n => if n < 2 then 0 else ilog2 fuel (n / 2) + 1

/-- The integer `k` with `2^k ≤ num / den < 2^(k+1)`, for `num, den > 0`. -/
def floorLog2 (num den : Nat) : Int :=
  let k0 : Int := (ilog2 num num : Int) - (ilog2 den den : Int)
  let ge : Bool := if 0 ≤ k0 then decide (den * 2 ^ k0.toNat ≤ num)
                   else decide (den ≤ num * 2 ^ (-k0).toNat)
  if ge then k0 else k0 - 1

/-- Round `num / den` to the nearest multiple of `2^e`, ties to even: the multiplier. -/
def roundToUnit (num den : Nat) (e : Int) : Nat :=
  let nd : Nat × Nat := if 0 ≤ e then (num, den * 2 ^ e.toNat) else (num * 2 ^ (-e).toNat, den)
  let q := nd.1 / nd.2
  let r := nd.1 % nd.2
  if nd.2 < 2 * r ∨ (2 * r = nd.2 ∧ q % 2 = 1) then q + 1 else q

/-- Go `strconv.ParseFloat(s, 64)` on the decimal `(-1)^neg * mant * 10^exp`: the nearest
float64, ties to even; `none` is the range error of a value that rounds to an infinity. -/
def parseFloat64 (neg : Bool) (mant : Nat) (exp : Int) : Option F64 :=
  if mant = 0 then some ⟨neg, 0, 0⟩
  else
    let v := scaled mant 10 exp
    let e := max (floorLog2 v.1 v.2 - 52) (-1074)
    let m := roundToUnit v.1 v.2 e
    if (971 < e) ∨ (e = 971 ∧ 2 ^ 53 ≤ m) then none
    else some (F64.norm neg m e)

/-- Go `int64(x)` for a float64 `x`: truncation toward zero. Outside the range of int64 the
result is implementation-dependent; the value here is the one of amd64. -/
def int64OfFloat (x : F64) : Int :=
  let v := scaled x.mant 2 x.exp
  let t : Int := ((v.1 / v.2 : Nat) : Int)
  let i : Int := if x.neg then -t else t
  if -(2 : Int) ^ 63 ≤ i ∧ i < (2 : Int) ^ 63 then i else -(2 : Int) ^ 63

/-- Decimal digits of a natural number, most significant first (`fuel` bounds their number). -/
def natDigits : Nat → Nat → Str
  | 0, _ => []
  | fuel + 1, n =>
    if n < 10 then [Char.ofNat (48 + n)]
    else natDigits fuel (n / 10) ++ [Char.ofNat (48 + n % 10)]

/-- Go `strconv.Itoa` for a natural number. -/
def natToDec (n : Nat) : Str := natDigits (n + 1) n

/-- Go `strconv.FormatInt(i, 10)`. -/
def intToDec (i : Int) : Str :=
  if i < 0 then '-' :: natToDec i.natAbs else natToDec i.natAbs

/-- The integer `p` with `10^(p-1) ≤ num / den < 10^p`, searched upward from `p ≤ log10
(num / den)` in at most `fuel` steps. -/
def decimalPoint : Nat → Int → Nat → Nat → Int
  | 0, p, _, _ => p
  | fuel + 1, p, num, den =>
    let lt : Bool := if 0 ≤ p then decide (num < den * 10 ^ p.toNat)
                     else decide (num * 10 ^ (-p).toNat < den)
    if lt then p else decimalPoint fuel (p + 1) num den

/-- The shortest decimal that reads back as `x`: tries `n`, `n+1`, ... digits; the result is
the digit string as a number and the exponent of its last digit. -/
def shortestFrom (x : F64) (num den : Nat) (p : Int) : Nat → Nat → Nat × Int
  | 0, n =>
    let v := scaled 10 10 ((n : Int) - p - 1)
    ((num * v.1) / (den * v.2), p - n)
  | fuel + 1, n =>
    let v := scaled 1 10 ((n : Int) - p)
    let q := (num * v.1) / (den * v.2)
    let r := (num * v.1) % (den * v.2)
    let okdown : Bool := decide (parseFloat64 x.neg q (p - n) = some x)
    let okup : Bool := decide (r ≠ 0 ∧ parseFloat64 x.neg (q + 1) (p - n) = some x)
    if okdown && okup then
      (if den * v.2 < 2 * r ∨ (2 * r = den * v.2 ∧ q % 2 = 1) then (q + 1, p - n) else (q, p - n))
    else if okdown then (q, p - n)
    else if okup then (q + 1, p - n)
    else shortestFrom x num den p fuel (n + 1)

/-- Drop the trailing zeros of a digit string, counting them into the exponent. -/
def dropZeros : Nat → Nat → Int → Nat × Int
  | 0, d, e => (d, e)
  | fuel + 1, d, e => if d ≠ 0 ∧ d % 10 = 0 then dropZeros fuel (d / 10) (e + 1) else (d, e)

/-- The digits `d.nd` and the decimal point `d.dp` of Go's shortest formatting of a
non-zero `x`: `x = 0.d₁d₂… * 10^dp`. The search for the decimal point starts below
`log10 x`, at `0.3 * log2 x` rounded down. -/
def shortestDecimal (x : F64) : Str × Int :=
  let v := scaled x.mant 2 x.exp
  let k := floorLog2 v.1 v.2
  let p0 : Int := if 0 ≤ k then k * 3 / 10 - 1 else k * 31 / 100 - 2
  let p := decimalPoint 700 p0 v.1 v.2
  let s := shortestFrom x v.1 v.2 p 18 0
  let t := dropZeros 20 s.1 s.2
  let ds := natToDec t.1
  (ds, t.2 + ds.length)

/-- Is `|x| < |y|`? -/
def F64.absLt (x y : F64) : Bool :=
  let a := scaled x.mant 2 x.exp
  let b := scaled y.mant 2 y.exp
  decide (a.1 * b.2 < b.1 * a.2)

/-- Format `%e` with the shortest digits: `d.ddde±xx`. -/
def fmtE (ds : Str) (dp : Int) : Str :=
  let e := dp - 1
  let ex := natToDec e.natAbs
  (match ds with
   | [] => ['0']
   | [d] => [d]
   | d :: rest => d :: '.' :: rest) ++
  ['e', if e < 0 then '-' else '+'] ++ (if ex.length < 2 then '0' :: ex else ex)

/-- Format `%f` with the shortest digits. -/
def fmtF (ds : Str) (dp : Int) : Str :=
  if 0 < dp then
    let ip := ds.take dp.toNat ++ List.replicate (dp.toNat - ds.length) '0'
    let fp := ds.drop dp.toNat
    if fp = [] then ip else ip ++ '.' :: fp
  else '0' :: '.' :: (List.replicate (-dp).toNat '0' ++ ds)

/-- The float64 encoder of Go `encoding/json`: `strconv.AppendFloat(b, f, fmt, -1, 64)` with
`fmt = 'e'` when `|f| < 1e-6` or `|f| ≥ 1e21` and `'f'` otherwise, a two-digit negative exponent
`e-0d` shortened to `e-d`. -/
def formatFloat64 (x : F64) : Str :=
  if x.mant = 0 then (if x.neg then ['-', '0'] else ['0'])
  else
    let d := shortestDecimal x
    let small : Bool := match parseFloat64 false 1 (-6) with
      | some y => x.absLt y
      | none => false
    let big : Bool := !(x.absLt (F64.norm false (10 ^ 21) 0))
    let body :=
      if small || big then
        let b := fmtE d.1 d.2
        match b.reverse with
        | c :: '0' :: '-' :: 'e' :: r => (c :: '-' :: 'e' :: r).reverse
        | _ => b
      else fmtF d.1 d.2
    if x.neg then '-' :: body else body

/-- Go `strconv.ParseInt(s, 10, 64)`. -/
def parseInt64 (s : Str) : Option Int :=
  let sd : Bool × Str := match s with
    | '-' :: t => (true, t)
    | '+' :: t => (false, t)
    | _ => (false, s)
  if sd.2 = [] ∨ ¬ sd.2.all (fun c => decide ('0' ≤ c ∧ c ≤ '9')) = true then none
  else
    let n : Nat := sd.2.foldl (fun a c => 10 * a + (c.toNat - 48)) 0
    let i : Int := if sd.1 then -(n : Int) else n
    if -(2 : Int) ^ 63 ≤ i ∧ i < (2 : Int) ^ 63 then some i else none


/-! ## encoding/json: reading a JSON text -/

/-- A JSON number literal, `(-1)^neg * mant * 10^exp`: `mant` is the digit string without
its decimal point, `exp` the written exponent less the number of fraction digits, and
`plain` says that the literal has neither a fraction nor an exponent part. -/
structure JNumber where
  neg : Bool
  mant : Nat
  exp : Int
  plain : Bool
deriving DecidableEq

/-- A parsed JSON text: object members in the order written, repeated keys kept. -/
inductive JSON where
  | null
  | bool (b : Bool)
  | number (n : JNumber)
  | string (s : Str)
  | array (xs : List JSON)
  | object (kvs : List (Str × JSON))

/-- The white space of JSON. -/
def isJSONSpace (c : Char) : Bool := c = ' ' || c = '\t' || c = '\r' || c = '\n'

/-- Skip the white space at the head of a text. -/
def skipSpace (s : Str) : Str := s.dropWhile isJSONSpace

/-- The value of a decimal digit. -/
def digitVal (c : Char) : Option Nat :=
  if 48 ≤ c.toNat ∧ c.toNat ≤ 57 then some (c.toNat - 48) else none

/-- The value of a hexadecimal digit. -/
def hexVal (c : Char) : Option Nat :=
  if 48 ≤ c.toNat ∧ c.toNat ≤ 57 then some (c.toNat - 48)
  else if 97 ≤ c.toNat ∧ c.toNat ≤ 102 then some (c.toNat - 87)
  else if 65 ≤ c.toNat ∧ c.toNat ≤ 70 then some (c.toNat - 55)
  else none

/-- The escape `\uXXXX` at the head of a text: its code unit and the text after it. -/
def readU4 : Str → Option (Nat × Str)
  | '\\' :: 'u' :: a :: b :: c :: d :: rest =>
    match hexVal a, hexVal b, hexVal c, hexVal d with
    | some x, some y, some z, some t => some (x * 4096 + y * 256 + z * 16 + t, rest)
    | _, _, _, _ => none
  | _ => none

/-- The character of a one-letter escape. -/
def escapeChar (c : Char) : Option Char :=
  if c = '"' then some '"' else if c = '\\' then some '\\' else if c = '/' then some '/'
  else if c = 'b' then some (Char.ofNat 8) else if c = 'f' then some (Char.ofNat 12)
  else if c = 'n' then some '\n' else if c = 'r' then some '\r' else if c = 't' then some '\t'
  else none

/-- A string literal after its opening quote: the decoded text (a surrogate pair of
`\u` escapes is one character, a lone surrogate is U+FFFD) and the text after the closing
quote. -/
def readString : Nat → Str → Option (Str × Str)
  | 0, _ => none
  | _ + 1, [] => none
  | fuel + 1, c :: cs =>
    if c = '"' then some ([], cs)
    else if c.toNat < 32 then none
    else if c = '\\' then
      match cs with
      | [] => none
      | e :: es =>
        if e = 'u' then
          match readU4 (c :: cs) with
          | none => none
          | some (r, rest) =>
            if 0xD800 ≤ r ∧ r < 0xE000 then
              match readU4 rest with
              | some (r2, rest2) =>
                if r < 0xDC00 ∧ 0xDC00 ≤ r2 ∧ r2 < 0xE000 then
                  (readString fuel rest2).map
                    (fun p => (Char.ofNat (0x10000 + (r - 0xD800) * 0x400 + (r2 - 0xDC00)) :: p.1, p.2))
                else (readString fuel rest).map (fun p => (Char.ofNat 0xFFFD :: p.1, p.2))
              | none => (readString fuel rest).map (fun p => (Char.ofNat 0xFFFD :: p.1, p.2))
            else (readString fuel rest).map (fun p => (Char.ofNat r :: p.1, p.2))
        else
          match escapeChar e with
          | none => none
          | some x => (readString fuel es).map (fun p => (x :: p.1, p.2))
    else (readString fuel cs).map (fun p => (c :: p.1, p.2))

/-- A run of decimal digits: their value after `acc`, their number, the text after them. -/
def readDigits : Str → Nat → Nat → Nat × Nat × Str
  | [], acc, n => (acc, n, [])
  | c :: cs, acc, n =>
    match digitVal c with
    | some d => readDigits cs (acc * 10 + d) (n + 1)
    | none => (acc, n, c :: cs)

/-- The exponent part of a number literal, when there is one. -/
def readExponent (s : Str) : Option (Option Int × Str) :=
  match s with
  | c :: t =>
    if c = 'e' ∨ c = 'E' then
      let sg : Bool × Str := match t with
        | '-' :: u => (true, u)
        | '+' :: u => (false, u)
        | _ => (false, t)
      let d := readDigits sg.2 0 0
      if d.2.1 = 0 then none
      else some (some (if sg.1 then -(d.1 : Int) else (d.1 : Int)), d.2.2)
    else some (none, s)
  | [] => some (none, s)

/-- The fraction part of a number literal after the integer part `ip`, when there is one:
the digits read so far, the number of fraction digits, the text after them. -/
def readFraction (ip : Nat) (s : Str) : Option (Nat × Option Nat × Str) :=
  match s with
  | '.' :: t =>
    let d := readDigits t ip 0
    if d.2.1 = 0 then none else some (d.1, some d.2.1, d.2.2)
  | _ => some (ip, none, s)

/-- A number literal `-? (0 | [1-9][0-9]*) (. [0-9]+)? ([eE] [+-]? [0-9]+)?`. -/
def readNumber (s : Str) : Option (JNumber × Str) :=
  let sg : Bool × Str := match s with
    | '-' :: t => (true, t)
    | _ => (false, s)
  let ip : Option (Nat × Str) := match sg.2 with
    | [] => none
    | c :: t =>
      if c = '0' then some (0, t)
      else match digitVal c with
        | some _ => let d := readDigits sg.2 0 0; some (d.1, d.2.2)
        | none => none
  match ip with
  | none => none
  | some (i, r1) =>
    match readFraction i r1 with
    | none => none
    | some (m, nf, r2) =>
      match readExponent r2 with
      | none => none
      | some (e, r3) =>
        some (⟨sg.1, m, e.getD 0 - (nf.getD 0 : Nat), nf.isNone && e.isNone⟩, r3)

/-- The deepest nesting of arrays and objects `encoding/json` accepts. -/
def maxNestingDepth : Nat := 10000

mutual
/-- One JSON value at the head of a text, below `depth` open arrays and objects. -/
def readValue : Nat → Nat → Str → Option (JSON × Str)
  | 0, _, _ => none
  | fuel + 1, depth, s =>
    match skipSpace s with
    | [] => none
    | c :: cs =>
      if c = '{' then
        if maxNestingDepth ≤ depth then none
        else match skipSpace cs with
          | '}' :: rest => some (.object [], rest)
          | _ => (readMembers fuel (depth + 1) cs).map (fun p => (.object p.1, p.2))
      else if c = '[' then
        if maxNestingDepth ≤ depth then none
        else match skipSpace cs with
          | ']' :: rest => some (.array [], rest)
          | _ => (readElements fuel (depth + 1) cs).map (fun p => (.array p.1, p.2))
      else if c = '"' then (readString cs.length cs).map (fun p => (.string p.1, p.2))
      else if c = 't' then (stripPre "true".toList (c :: cs)).map (fun r => (.bool true, r))
      else if c = 'f' then (stripPre "false".toList (c :: cs)).map (fun r => (.bool false, r))
      else if c = 'n' then (stripPre "null".toList (c :: cs)).map (fun r => (.null, r))
      else (readNumber (c :: cs)).map (fun p => (.number p.1, p.2))
/-- The elements of an array after `[` or `,`, up to and including `]`. -/
def readElements : Nat → Nat → Str → Option (List JSON × Str)
  | 0, _, _ => none
  | fuel + 1, depth, s =>
    match readValue fuel depth s with
    | none => none
    | some (v, rest) =>
      match skipSpace rest with
      | c :: r =>
        if c = ',' then (readElements fuel depth r).map (fun p => (v :: p.1, p.2))
        else if c = ']' then some ([v], r)
        else none
      | [] => none
/-- The members of an object after `{` or `,`, up to and including `}`. -/
def readMembers : Nat → Nat → Str → Option (List (Str × JSON) × Str)
  | 0, _, _ => none
  | fuel + 1, depth, s =>
    match skipSpace s with
    | c :: cs =>
      if c = '"' then
        match readString cs.length cs with
        | none => none
        | some (k, r1) =>
          match skipSpace r1 with
          | c2 :: r2 =>
            if c2 = ':' then
              match readValue fuel depth r2 with
              | none => none
              | some (v, r3) =>
                match skipSpace r3 with
                | c3 :: r4 =>
                  if c3 = ',' then (readMembers fuel depth r4).map (fun p => ((k, v) :: p.1, p.2))
                  else if c3 = '}' then some ([(k, v)], r4)
                  else none
                | [] => none
            else none
          | [] => none
      else none
    | [] => none
end

/-- The syntax check and parse of `json.Unmarshal`: one value, white space around it. -/
def parseJSON (s : Str) : Option JSON :=
  match readValue (2 * s.length + 2) 0 s with
  | none => none
  | some (v, rest) => if skipSpace rest = [] then some v else none

/-! ## encoding/json: Go values -/

/-- The `sendPrivateMsgParams` of middleware-a. -/
structure sendPrivateMsgParams where
  UserID : Int
  Message : Str
deriving DecidableEq

/-- The `sendGroupMsgParams` of middleware-a. -/
structure sendGroupMsgParams where
  GroupID : Int
  Message : Str
deriving DecidableEq

/-- The `uploadPrivateFileParams` of middleware-a. -/
structure uploadPrivateFileParams where
  UserID : Int
  File : Str
  Name : Str
deriving DecidableEq

/-- The `uploadGroupFileParams` of middleware-a. -/
structure uploadGroupFileParams where
  GroupID : Int
  File : Str
  Name : Str
deriving DecidableEq

/-- The dynamic value of an `interface{}`: what `encoding/json` stores into one (`nil`,
`bool`, `float64`, `string`, `[]interface{}`, `map[string]interface{}`), and the parameter
structs the interceptor stores into `oneBotCommand.Params`. -/
inductive Any where
  | nil
  | bool (b : Bool)
  | float64 (x : F64)
  | string (s : Str)
  | slice (xs : List Any)
  | map (kvs : List (Str × Any))
  | sendPrivate (p : sendPrivateMsgParams)
  | sendGroup (p : sendGroupMsgParams)
  | uploadPrivate (p : uploadPrivateFileParams)
  | uploadGroup (p : uploadGroupFileParams)

/-- The `oneBotCommand` of middleware-a. -/
structure oneBotCommand where
  Action : Str
  Params : Any
  Echo : Any

mutual
/-- Decoding a JSON value into an `interface{}`; `none` when a number is out of the range of
float64 (the `UnmarshalTypeError` that `json.Unmarshal` then returns). -/
def JSON.toAny : JSON → Option Any
  | .null => some .nil
  | .bool b => some (.bool b)
  | .number n => (parseFloat64 n.neg n.mant n.exp).map .float64
  | .string s => some (.string s)
  | .array xs => (toAnyList xs).map .slice
  | .object kvs => (toAnyMembers kvs).map (fun l => .map (l.foldl (fun m kv => mapSet m kv.1 kv.2) []))
/-- Decoding the elements of an array. -/
def toAnyList : List JSON → Option (List Any)
  | [] => some []
  | x :: xs =>
    match x.toAny, toAnyList xs with
    | some a, some l => some (a :: l)
    | _, _ => none
/-- Decoding the members of an object, in the order written. -/
def toAnyMembers : List (Str × JSON) → Option (List (Str × Any))
  | [] => some []
  | (k, x) :: kvs =>
    match x.toAny, toAnyMembers kvs with
    | some a, some l => some ((k, a) :: l)
    | _, _ => none
end

/-- The ASCII letter a rune folds to under Unicode simple case folding, in lower case, when
there is one: the upper and lower case letters, U+017F for `s` and U+212A for `k`. -/
def foldASCII (c : Char) : Char :=
  if 65 ≤ c.toNat ∧ c.toNat ≤ 90 then Char.ofNat (c.toNat + 32)
  else if c.toNat = 0x17F then 's'
  else if c.toNat = 0x212A then 'k'
  else c

/-- Does the object key `key` select the struct field with the JSON name `name` (lower-case
ASCII)? `encoding/json` takes an exact match, and otherwise a match under case folding. -/
def fieldIs (name key : Str) : Bool := decide (key.map foldASCII = name)

/-- Storing one member of an object into a `oneBotCommand`; `none` on a type error. -/
def setCommandField (cmd : oneBotCommand) (kv : Str × JSON) : Option oneBotCommand :=
  if fieldIs "action".toList kv.1 then
    match kv.2 with
    | .string s => some { cmd with Action := s }
    | .null => some cmd
    | _ => none
  else if fieldIs "params".toList kv.1 then
    (kv.2.toAny).map (fun a => { cmd with Params := a })
  else if fieldIs "echo".toList kv.1 then
    (kv.2.toAny).map (fun a => { cmd with Echo := a })
  else some cmd

/-- Decoding a JSON value into a zero `oneBotCommand`; `none` when `json.Unmarshal` returns
an error. The decoder goes on after a type error, but the error is returned in the end. -/
def decodeCommand : JSON → Option oneBotCommand
  | .null => some ⟨[], .nil, .nil⟩
  | .object kvs =>
    kvs.foldl (fun acc kv => acc.bind (fun cmd => setCommandField cmd kv)) (some ⟨[], .nil, .nil⟩)
  | _ => none

/-- Go `json.Unmarshal(msg, &cmd)` with `cmd` a zero `oneBotCommand`; `none` for an error. -/
def unmarshalCommand (msg : Str) : Option oneBotCommand :=
  (parseJSON msg).bind decodeCommand

/-! ## encoding/json: writing -/

/-- A hexadecimal digit, lower case. -/
def hexDigit (n : Nat) : Char := if n < 10 then Char.ofNat (48 + n) else Char.ofNat (87 + n)

/-- One rune of a string as `json.Marshal` writes it (HTML escaping on, Go 1.22 or later). -/
def encodeRune (c : Char) : Str :=
  if c = '"' ∨ c = '\\' then ['\\', c]
  else if c.toNat = 8 then ['\\', 'b']
  else if c.toNat = 12 then ['\\', 'f']
  else if c = '\n' then ['\\', 'n']
  else if c = '\r' then ['\\', 'r']
  else if c = '\t' then ['\\', 't']
  else if c.toNat < 32 ∨ c = '<' ∨ c = '>' ∨ c = '&' then
    ['\\', 'u', '0', '0', hexDigit (c.toNat / 16), hexDigit (c.toNat % 16)]
  else if c.toNat = 0x2028 then "\\u2028".toList
  else if c.toNat = 0x2029 then "\\u2029".toList
  else [c]

/-- A string as `json.Marshal` writes it. -/
def encodeString (s : Str) : Str := ['"'] ++ (s.map encodeRune).flatten ++ ['"']

/-- Code point order on texts: the order of Go strings (byte order of UTF-8). -/
def strLt : Str → Str → Bool
  | [], [] => false
  | [], _ :: _ => true
  | _ :: _, [] => false
  | a :: as, b :: bs => if a.toNat < b.toNat then true else if b.toNat < a.toNat then false else strLt as bs

/-- Insert an entry into a list sorted by key. -/
def insertByKey {β : Type} (kv : Str × β) : List (Str × β) → List (Str × β)
  | [] => [kv]
  | x :: xs => if strLt kv.1 x.1 then kv :: x :: xs else x :: insertByKey kv xs

/-- The entries of a map in the order of their keys: the order in which `json.Marshal`
writes a map. -/
def sortByKey {β : Type} (m : List (Str × β)) : List (Str × β) :=
  m.foldr insertByKey []

/-- The members `"k":v` of an object, comma separated. -/
def joinMembers : List (Str × Str) → Str
  | [] => []
  | [(k, v)] => encodeString k ++ [':'] ++ v
  | (k, v) :: rest => encodeString k ++ [':'] ++ v ++ [','] ++ joinMembers rest

/-- The elements of an array, comma separated. -/
def joinElements : List Str → Str
  | [] => []
  | [v] => v
  | v :: rest => v ++ [','] ++ joinElements rest

/-- An object with the given members, already written. -/
def encodeObject (members : List (Str × Str)) : Str := ['{'] ++ joinMembers members ++ ['}']

mutual
/-- Go `json.Marshal(v)` for the dynamic value of an `interface{}`. -/
def Any.marshal : Any → Str
  | .nil => "null".toList
  | .bool b => if b then "true".toList else "false".toList
  | .float64 x => formatFloat64 x
  | .string s => encodeString s
  | .slice xs => ['['] ++ joinElements (marshalList xs) ++ [']']
  | .map kvs => encodeObject (sortByKey (marshalMembers kvs))
  | .sendPrivate p =>
    encodeObject [("user_id".toList, intToDec p.UserID), ("message".toList, encodeString p.Message)]
  | .sendGroup p =>
    encodeObject [("group_id".toList, intToDec p.GroupID), ("message".toList, encodeString p.Message)]
  | .uploadPrivate p =>
    encodeObject [("user_id".toList, intToDec p.UserID), ("file".toList, encodeString p.File),
      ("name".toList, encodeString p.Name)]
  | .uploadGroup p =>
    encodeObject [("group_id".toList, intToDec p.GroupID), ("file".toList, encodeString p.File),
      ("name".toList, encodeString p.Name)]
/-- The elements of a slice, each written. -/
def marshalList : List Any → List Str
  | [] => []
  | x :: xs => x.marshal :: marshalList xs
/-- The entries of a map, each value written. -/
def marshalMembers : List (Str × Any) → List (Str × Str)
  | [] => []
  | (k, x) :: kvs => (k, x.marshal) :: marshalMembers kvs
end

/-- Go `json.Marshal(cmd)` for a `oneBotCommand`. -/
def oneBotCommand.marshal (cmd : oneBotCommand) : Str :=
  encodeObject [("action".toList, encodeString cmd.Action), ("params".toList, cmd.Params.marshal),
    ("echo".toList, cmd.Echo.marshal)]

/-- Decoding a JSON value into a nil `map[string]interface{}`; `none` for an error. A later
member with the same key replaces an earlier one; `null` leaves the map nil, which reads
like an empty one. -/
def decodeMap : JSON → Option (List (Str × Any))
  | .null => some []
  | .object kvs => (toAnyMembers kvs).map (fun l => l.foldl (fun m kv => mapSet m kv.1 kv.2) [])
  | _ => none

/-- Go `json.Unmarshal(raw, &p)` with `p` a nil `map[string]interface{}`. -/
def unmarshalMap (raw : Str) : Option (List (Str × Any)) :=
  (parseJSON raw).bind decodeMap

/-- Decoding a JSON value into an `int64` field holding `old`: `strconv.ParseInt` on the
literal, so a fraction, an exponent or a value out of range is a type error. -/
def decodeInt64 (old : Int) : JSON → Option Int
  | .null => some old
  | .number n =>
    let i : Int := if n.neg then -(n.mant : Int) else n.mant
    if n.plain = true ∧ -(2 : Int) ^ 63 ≤ i ∧ i < (2 : Int) ^ 63 then some i else none
  | _ => none

/-- Decoding a JSON value into a `string` field holding `old`. -/
def decodeStr (old : Str) : JSON → Option Str
  | .null => some old
  | .string s => some s
  | _ => none

/-- Storing one member of an object into the fields `(id, file, name)` of an upload
parameter struct whose recipient field has the JSON name `idName`. -/
def setUploadField (idName : Str) (p : Int × Str × Str) (kv : Str × JSON) :
    Option (Int × Str × Str) :=
  if fieldIs idName kv.1 then (decodeInt64 p.1 kv.2).map (fun i => (i, p.2.1, p.2.2))
  else if fieldIs "file".toList kv.1 then (decodeStr p.2.1 kv.2).map (fun s => (p.1, s, p.2.2))
  else if fieldIs "name".toList kv.1 then (decodeStr p.2.2 kv.2).map (fun s => (p.1, p.2.1, s))
  else some p

/-- Decoding a JSON value into a zero upload parameter struct; `none` for an error. -/
def decodeUpload (idName : Str) : JSON → Option (Int × Str × Str)
  | .null => some (0, [], [])
  | .object kvs =>
    kvs.foldl (fun acc kv => acc.bind (fun p => setUploadField idName p kv)) (some (0, [], []))
  | _ => none

/-- Go `json.Unmarshal(raw, &p)` with `p` a zero `uploadPrivateFileParams`. -/
def unmarshalUploadPrivate (raw : Str) : Option uploadPrivateFileParams :=
  ((parseJSON raw).bind (decodeUpload "user_id".toList)).map (fun p => ⟨p.1, p.2.1, p.2.2⟩)

/-- Go `json.Unmarshal(raw, &p)` with `p` a zero `uploadGroupFileParams`. -/
def unmarshalUploadGroup (raw : Str) : Option uploadGroupFileParams :=
  ((parseJSON raw).bind (decodeUpload "group_id".toList)).map (fun p => ⟨p.1, p.2.1, p.2.2⟩)

/-! ## rewriteIfUpload -/

/-- A Go run-time panic. -/
inductive Panic where
  /-- The failed type assertion `x.(float64)`: `x` is nil or holds another type. -/
  | typeAssertion
deriving DecidableEq

deriving instance DecidableEq for Except

/-- Go `v, ok := x.(string)` for an `interface{}` found in a map (`nil` when absent). -/
def assertString : Option Any → Option Str
  | some (.string s) => some s
  | _ => none

/-- Go `x.(float64)` for an `interface{}` found in a map (`nil` when absent): the unchecked
form, which panics on any other dynamic type. -/
def assertFloat64 : Option Any → Except Panic F64
  | some (.float64 x) => .ok x
  | _ => .error .typeAssertion

/-- Go `fmt.Sprintf("[CQ:file,file=%s,name=%s]", escapeCommaMaybe(url), name)`. -/
def fileCQ (url name : Str) : Str :=
  "[CQ:file,file=".toList ++ escapeCommaMaybe url ++ ",name=".toList ++ name ++ [']']

/-- The command interceptor `rewriteIfUpload(msg, cfg)`. -/
def rewriteIfUpload (w : World) (msg : Str) (cfg : Config) : Except Panic Str :=
  match unmarshalCommand msg with
  | none => .ok msg
  | some cmd =>
    if cmd.Action = "send_private_msg".toList then
      match unmarshalMap cmd.Params.marshal with
      | some p =>
        match assertString (mapGet? p "message".toList) with
        | some v =>
          let nv := rewriteCQMediaInText w v cfg
          if nv ≠ v then
            match assertFloat64 (mapGet? p "user_id".toList) with
            | .ok x =>
              .ok (oneBotCommand.marshal
                ⟨"send_private_msg".toList, .sendPrivate ⟨int64OfFloat x, nv⟩, cmd.Echo⟩)
            | .error e => .error e
          else .ok msg
        | none => .ok msg
      | none => .ok msg
    else if cmd.Action = "send_group_msg".toList then
      match unmarshalMap cmd.Params.marshal with
      | some p =>
        match assertString (mapGet? p "message".toList) with
        | some v =>
          let nv := rewriteCQMediaInText w v cfg
          if nv ≠ v then
            match assertFloat64 (mapGet? p "group_id".toList) with
            | .ok x =>
              .ok (oneBotCommand.marshal
                ⟨"send_group_msg".toList, .sendGroup ⟨int64OfFloat x, nv⟩, cmd.Echo⟩)
            | .error e => .error e
          else .ok msg
        | none => .ok msg
      | none => .ok msg
    else if cmd.Action = "upload_private_file".toList then
      match unmarshalUploadPrivate cmd.Params.marshal with
      | none => .ok msg
      | some p =>
        let r := uploadViaB w 0 p.File p.Name cfg
        if r.1.LocalPath ≠ [] then
          .ok (oneBotCommand.marshal
            ⟨"upload_private_file".toList, .uploadPrivate ⟨p.UserID, r.1.LocalPath, r.2⟩, cmd.Echo⟩)
        else if r.1.URL ≠ [] then
          .ok (oneBotCommand.marshal
            ⟨"send_private_msg".toList, .sendPrivate ⟨p.UserID, fileCQ r.1.URL r.2⟩, cmd.Echo⟩)
        else .ok msg
    else if cmd.Action = "upload_group_file".toList then
      match unmarshalUploadGroup cmd.Params.marshal with
      | none => .ok msg
      | some p =>
        let r := uploadViaB w 0 p.File p.Name cfg
        if r.1.LocalPath ≠ [] then
          .ok (oneBotCommand.marshal
            ⟨"upload_group_file".toList, .uploadGroup ⟨p.GroupID, r.1.LocalPath, r.2⟩, cmd.Echo⟩)
        else if r.1.URL ≠ [] then
          .ok (oneBotCommand.marshal
            ⟨"send_group_msg".toList, .sendGroup ⟨p.GroupID, fileCQ r.1.URL r.2⟩, cmd.Echo⟩)
        else .ok msg
    else .ok msg

/-! ## predicates of the statements -/

/-- Does the text hold `[CQ:image` or `[CQ:record`, the opening of a match of the pattern? -/
def hasOpening : Str → Bool
  | [] => false
  | c :: cs =>
    (stripPre "[CQ:image".toList (c :: cs)).isSome ||
    (stripPre "[CQ:record".toList (c :: cs)).isSome || hasOpening cs

/-! ## concrete worlds for the examples -/

/-- A configuration with every field empty. -/
def emptyConfig : Config := ⟨[], [], [], [], false, [], []⟩

/-- A world whose upload endpoint answers every request with the URL `https://cdn/x.png` and
the name `a.png`, and no local path; maps are ranged over in insertion order. -/
def cdnWorld : World where
  urlParsePath := fun _ => none
  upload := fun _ _ _ _ => (⟨"https://cdn/x.png".toList, []⟩, "a.png".toList)
  mapRange := fun _ m => m
  mapRange_perm := fun _ _ => List.Perm.refl _

/-- The frame of the example in the specification:
`{"action":"send_group_msg","params":{"group_id":123,"message":"hi [CQ:image,file=/tmp/a.png]"},"echo":1}`. -/
def specFrame : Str :=
  "\x7b\"action\":\"send_group_msg\",\"params\":\x7b\"group_id\":123,\"message\":\"hi [CQ:image,file=/tmp/a.png]\"\x7d,\"echo\":1\x7d".toList

/-- The frame the specification expects for `specFrame`:
`{"action":"send_group_msg","params":{"group_id":123,"message":"hi [CQ:image,file=https://cdn/x.png,name=a.png]"},"echo":1}`. -/
def specFrameOut : Str :=
  "\x7b\"action\":\"send_group_msg\",\"params\":\x7b\"group_id\":123,\"message\":\"hi [CQ:image,file=https://cdn/x.png,name=a.png]\"\x7d,\"echo\":1\x7d".toList

/-- The frame of the example with a file reference that is one space:
`{"action":"send_group_msg","params":{"group_id":123,"message":"hi [CQ:image,file= ]"},"echo":1}`. -/
def blankFileFrame : Str :=
  "\x7b\"action\":\"send_group_msg\",\"params\":\x7b\"group_id\":123,\"message\":\"hi [CQ:image,file= ]\"\x7d,\"echo\":1\x7d".toList

/-- The parameters `json.Unmarshal` decodes from `specFrame`. -/
def specParams : List (Str × Any) :=
  [("group_id".toList, .float64 ⟨false, 123, 0⟩),
   ("message".toList, .string "hi [CQ:image,file=/tmp/a.png]".toList)]

/-- The command `json.Unmarshal` decodes from `specFrame`. -/
def specCommand : oneBotCommand :=
  ⟨"send_group_msg".toList, .map specParams, .float64 ⟨false, 1, 0⟩⟩

/-- A world whose upload endpoint shares its storage: every request is answered with the URL
`https://cdn/x.png`, the local path `/srv/uploads/x.png` and the name `a.png`. -/
def sharedWorld : World where
  urlParsePath := fun _ => none
  upload := fun _ _ _ _ =>
    (⟨"https://cdn/x.png".toList, "/srv/uploads/x.png".toList⟩, "a.png".toList)
  mapRange := fun _ m => m
  mapRange_perm := fun _ _ => List.Perm.refl _

/-- A world in which every upload fails: `uploadViaB` returns `uploadResult{}, ""`. -/
def failingWorld : World where
  urlParsePath := fun _ => none
  upload := fun _ _ _ _ => (⟨[], []⟩, [])
  mapRange := fun _ m => m
  mapRange_perm := fun _ _ => List.Perm.refl _

/-- The frame
`{"action":"upload_private_file","params":{"user_id":42,"file":"https://example.com/a,b.png","name":"doc.png"},"echo":"e1"}`. -/
def uploadURLFrame : Str :=
  "\x7b\"action\":\"upload_private_file\",\"params\":\x7b\"user_id\":42,\"file\":\"https://example.com/a,b.png\",\"name\":\"doc.png\"\x7d,\"echo\":\"e1\"\x7d".toList

/-- The command `json.Unmarshal` decodes from `uploadURLFrame`. -/
def uploadURLCommand : oneBotCommand :=
  ⟨"upload_private_file".toList,
   .map [("user_id".toList, .float64 ⟨false, 21, 1⟩),
         ("file".toList, .string "https://example.com/a,b.png".toList),
         ("name".toList, .string "doc.png".toList)],
   .string "e1".toList⟩

/-- The frame
`{"action":"upload_group_file","params":{"group_id":7,"file":"/tmp/report.pdf"},"echo":3}`. -/
def uploadPathFrame : Str :=
  "\x7b\"action\":\"upload_group_file\",\"params\":\x7b\"group_id\":7,\"file\":\"/tmp/report.pdf\"\x7d,\"echo\":3\x7d".toList

/-- The command `json.Unmarshal` decodes from `uploadPathFrame`. -/
def uploadPathCommand : oneBotCommand :=
  ⟨"upload_group_file".toList,
   .map [("group_id".toList, .float64 ⟨false, 7, 0⟩),
         ("file".toList, .string "/tmp/report.pdf".toList)],
   .float64 ⟨false, 3, 0⟩⟩

/-- The tests of the callback that leave a segment with the attribute text `argsStr` as it
is: a `url` attribute that is http(s), no non-empty `file` attribute, a `file` that is
http(s), or an answer of the resolver without a URL. -/
def keepsSegment (w : World) (cfg : Config) (tick : Nat) (argsStr : Str) : Bool :=
  (match mapGet? (parseArgs argsStr) "url".toList with
   | some u => isHTTP u
   | none => false) ||
  decide (mapGet (parseArgs argsStr) "file".toList = []) ||
  isHTTP (mapGet (parseArgs argsStr) "file".toList) ||
  decide ((uploadViaB w tick (mapGet (parseArgs argsStr) "file".toList)
    (mapGet (parseArgs argsStr) "name".toList) cfg).1.URL = [])

/-- Every match of the pattern in the text, at whatever position it starts, passes one of
the tests of `keepsSegment`; the tick of a match is the number of characters after it. -/
def allKept (w : World) (cfg : Config) : Str → Bool
  | [] => true
  | c :: cs =>
    (match matchHere (c :: cs) with
     | some (_, a, rest) => keepsSegment w cfg rest.length a
     | none => true) && allKept w cfg cs

/-- A message with four segments that need no rewriting when every upload fails, and one
segment of another kind. -/
def keptText : Str :=
  "a [CQ:image,file=https://h/y.png] b [CQ:record,url=http://u/v,file=/t.amr] [CQ:at,qq=1] [CQ:image,summary=x] [CQ:image,file=/tmp/a.png]".toList

/-- The frame `{"action":"send_private_msg","params":{"message":"[CQ:image,file=/tmp/a.png]"}}`:
no `user_id`. -/
def noUserFrame : Str :=
  "\x7b\"action\":\"send_private_msg\",\"params\":\x7b\"message\":\"[CQ:image,file=/tmp/a.png]\"\x7d\x7d".toList

/-- The command `json.Unmarshal` decodes from `noUserFrame`. -/
def noUserCommand : oneBotCommand :=
  ⟨"send_private_msg".toList, .map [("message".toList, .string "[CQ:image,file=/tmp/a.png]".toList)],
   .nil⟩

/-- The frame of the example with an echo that float64 cannot hold:
`{"action":"send_group_msg","params":{"group_id":123,"message":"hi [CQ:image,file=/tmp/a.png]"},"echo":9007199254740993}`. -/
def bigEchoFrame : Str :=
  "\x7b\"action\":\"send_group_msg\",\"params\":\x7b\"group_id\":123,\"message\":\"hi [CQ:image,file=/tmp/a.png]\"\x7d,\"echo\":9007199254740993\x7d".toList

/-- A world whose upload endpoint answers every request with the URL `https://cdn/x.png` and
the name `a,b.png`. -/
def commaNameWorld : World where
  urlParsePath := fun _ => none
  upload := fun _ _ _ _ => (⟨"https://cdn/x.png".toList, []⟩, "a,b.png".toList)
  mapRange := fun _ m => m
  mapRange_perm := fun _ _ => List.Perm.refl _

/-- Does the text hold `%2C`, the escape of a comma? -/
def hasEscapedComma : Str → Bool
  | [] => false
  | c :: cs => (stripPre "%2C".toList (c :: cs)).isSome || hasEscapedComma cs

/-- Reading the file reference back from a segment: the attribute list is found and parsed
the way `rewriteCQMediaInText` does it (the pattern, `Split` on `,`, `SplitN` at the first
`=`, `TrimSpace`), and every `%2C` of the `file` value is replaced by `,`. -/
def readBackFile (seg : Str) : Option Str :=
  match FindStringSubmatch seg with
  | [_, _, argsStr] => some (unescapeComma (mapGet (parseArgs argsStr) "file".toList))
  | _ => none

/-- An attribute that can be written into a segment and read back: no `,` and no `]` in the
key and the value, no `=` in the key, and a key without white space around it. -/
def GoodEntry (kv : Str × Str) : Prop :=
  ',' ∉ kv.1 ∧ ',' ∉ kv.2 ∧ ']' ∉ kv.1 ∧ ']' ∉ kv.2 ∧ '=' ∉ kv.1 ∧ TrimSpace kv.1 = kv.1

/-- A world whose upload endpoint answers every request with the URL
`https://cdn/a%2Cb.png` and the name `a.png`. -/
def escapedURLWorld : World where
  urlParsePath := fun _ => none
  upload := fun _ _ _ _ => (⟨"https://cdn/a%2Cb.png".toList, []⟩, "a.png".toList)
  mapRange := fun _ m => m
  mapRange_perm := fun _ _ => List.Perm.refl _

/-- A world whose upload endpoint answers every request with the URL
`https://cdn/a,b.png?x=1,2` and the name `a.png`; maps are ranged over in reverse order. -/
def commaURLWorld : World where
  urlParsePath := fun _ => none
  upload := fun _ _ _ _ => (⟨"https://cdn/a,b.png?x=1,2".toList, []⟩, "a.png".toList)
  mapRange := fun _ m => m.reverse
  mapRange_perm := fun _ m => List.reverse_perm m

/-- The text after the first `://` of a URL. -/
def afterScheme : Str → Str
  | [] => []
  | ':' :: '/' :: '/' :: rest => rest
  | _ :: cs => afterScheme cs

/-- The path of a plain URL `scheme://authority/path?query#fragment` without percent
escapes: the text from the first `/` after the authority up to a `?` or a `#`. This is the
`Path` that `url.Parse` returns for such a URL. -/
def plainURLPath (s : Str) : Str :=
  ((afterScheme s).dropWhile (fun c => c ≠ '/' && c ≠ '?' && c ≠ '#')).takeWhile
    (fun c => c ≠ '?' && c ≠ '#')

/-- A world in which `url.Parse` succeeds and splits a URL as `plainURLPath` does; every
upload fails. -/
def plainURLWorld : World where
  urlParsePath := fun s => some (plainURLPath s)
  upload := fun _ _ _ _ => (⟨[], []⟩, [])
  mapRange := fun _ m => m
  mapRange_perm := fun _ _ => List.Perm.refl _

/-! # Theorems -/

/-! ## strings and the pattern -/

theorem stripPre_eq_some_iff (p s t : Str) : stripPre p s = some t ↔ s = p ++ t := by
  induction p generalizing s with
  | nil => simp [stripPre, eq_comm]
  | cons a p ih =>
    cases s with
    | nil => simp [stripPre]
    | cons c cs =>
      by_cases h : a = c
      · subst h; simp [stripPre, ih]
      · simp [stripPre, h]; intro h'; exact absurd h'.symm h

theorem stripPre_append (p t : Str) : stripPre p (p ++ t) = some t :=
  (stripPre_eq_some_iff p (p ++ t) t).2 rfl

theorem untilBracket_append (a r : Str) (h : ']' ∉ a) :
    untilBracket (a ++ ']' :: r) = some (a, r) := by
  induction a with
  | nil => simp [untilBracket]
  | cons x xs ih =>
    simp only [List.mem_cons, not_or] at h
    have hx : x ≠ ']' := fun e => h.1 e.symm
    simp [untilBracket, hx, ih h.2]

theorem untilBracket_some (s a r : Str) (h : untilBracket s = some (a, r)) :
    s = a ++ ']' :: r ∧ ']' ∉ a := by
  induction s generalizing a r with
  | nil => simp [untilBracket] at h
  | cons c cs ih =>
    unfold untilBracket at h
    split at h
    · next hc =>
      simp only [Option.some.injEq, Prod.mk.injEq] at h
      obtain ⟨rfl, rfl⟩ := h
      simp [hc]
    · next hc =>
      split at h
      · cases h
      · next a' r' hu =>
        simp only [Option.some.injEq, Prod.mk.injEq] at h
        obtain ⟨rfl, rfl⟩ := h
        obtain ⟨e1, e2⟩ := ih a' r' hu
        refine ⟨by simp [e1], ?_⟩
        simp only [List.mem_cons, not_or]
        exact ⟨fun e => hc e.symm, e2⟩

theorem matchKind_append (kind a r : Str) (h : ']' ∉ a) :
    matchKind kind (kind ++ a ++ ']' :: r) = some (kind, a, r) := by
  simp [matchKind, List.append_assoc, stripPre_append, untilBracket_append a r h]

theorem matchKind_some (kind t k a r : Str) (h : matchKind kind t = some (k, a, r)) :
    k = kind ∧ t = kind ++ a ++ ']' :: r ∧ ']' ∉ a := by
  unfold matchKind at h
  split at h
  · cases h
  · next x hx =>
    split at h
    · cases h
    · next a' r' hu =>
      simp only [Option.some.injEq, Prod.mk.injEq] at h
      obtain ⟨rfl, rfl, rfl⟩ := h
      obtain ⟨e1, e2⟩ := untilBracket_some _ _ _ hu
      rw [stripPre_eq_some_iff] at hx
      exact ⟨rfl, by rw [hx, e1, List.append_assoc], e2⟩

/-- A match of the pattern at the head of a text: the text starts with a segment of kind
`image` or `record` whose attribute text has no `]`. -/
theorem matchHere_some (s k a r : Str) (h : matchHere s = some (k, a, r)) :
    (k = "image".toList ∨ k = "record".toList) ∧ s = segText k a ++ r ∧ ']' ∉ a := by
  unfold matchHere at h
  split at h
  · cases h
  · next t ht =>
    rw [stripPre_eq_some_iff] at ht
    split at h
    · next m hm =>
      simp only [Option.some.injEq] at h
      subst h
      obtain ⟨e1, e2, e3⟩ := matchKind_some _ _ _ _ _ hm
      exact ⟨Or.inl e1, by rw [ht, e2, e1]; simp [segText], e3⟩
    · obtain ⟨e1, e2, e3⟩ := matchKind_some _ _ _ _ _ h
      exact ⟨Or.inr e1, by rw [ht, e2, e1]; simp [segText], e3⟩

/-- The pattern matches a segment of kind `image` or `record` at the head of a text. -/
theorem matchHere_segText (k a r : Str) (hk : k = "image".toList ∨ k = "record".toList)
    (ha : ']' ∉ a) : matchHere (segText k a ++ r) = some (k, a, r) := by
  have h0 : stripPre "[CQ:".toList (segText k a ++ r) = some (k ++ a ++ ']' :: r) := by
    rw [stripPre_eq_some_iff]; simp [segText]
  unfold matchHere
  rw [h0]
  dsimp only
  rcases hk with rfl | rfl
  · rw [matchKind_append _ a r ha]
  · have h1 : matchKind "image".toList ("record".toList ++ a ++ ']' :: r) = none := by
      simp [matchKind, stripPre]
    rw [h1, matchKind_append _ a r ha]

theorem FindStringSubmatch_of_matchHere (s k a r : Str) (h : matchHere s = some (k, a, r)) :
    FindStringSubmatch s = [segText k a, k, a] := by
  cases s with
  | nil => simp [matchHere, stripPre] at h
  | cons c cs => simp [FindStringSubmatch, h]

/-- On a segment of kind `image` or `record`, `FindStringSubmatch` returns the segment and
its two captures. -/
theorem FindStringSubmatch_segText (k a : Str) (hk : k = "image".toList ∨ k = "record".toList)
    (ha : ']' ∉ a) : FindStringSubmatch (segText k a) = [segText k a, k, a] := by
  apply FindStringSubmatch_of_matchHere _ _ _ []
  have := matchHere_segText k a [] hk ha
  rwa [List.append_nil] at this

theorem FindStringSubmatch_eq_nil_cons (c : Char) (cs : Str)
    (h : FindStringSubmatch (c :: cs) = []) :
    matchHere (c :: cs) = none ∧ FindStringSubmatch cs = [] := by
  unfold FindStringSubmatch at h
  split at h
  · cases h
  · next hm => exact ⟨hm, h⟩

/-- A text without a match of the pattern is left as it is. -/
theorem ReplaceAllStringFuncAux_noMatch (f : Nat → Str → Str) (fuel : Nat) (s : Str)
    (h : FindStringSubmatch s = []) : ReplaceAllStringFuncAux f fuel s = s := by
  induction s generalizing fuel with
  | nil => cases fuel <;> rfl
  | cons c cs ih =>
    obtain ⟨h1, h2⟩ := FindStringSubmatch_eq_nil_cons c cs h
    cases fuel with
    | zero => rfl
    | succ n => simp [ReplaceAllStringFuncAux, h1, ih n h2]

theorem stripPre_append_left (pat x y t : Str) (hx : x ≠ []) (hy : y.head? = some '[')
    (hp : '[' ∉ pat.tail) (h : stripPre pat (x ++ y) = some t) :
    ∃ u, stripPre pat x = some u := by
  induction pat generalizing x with
  | nil => exact ⟨x, rfl⟩
  | cons p ps ih =>
    cases x with
    | nil => exact absurd rfl hx
    | cons c cs =>
      simp only [List.cons_append, stripPre] at h ⊢
      split at h
      · next hpc =>
        rw [if_pos hpc]
        cases cs with
        | nil =>
          cases ps with
          | nil => exact ⟨[], rfl⟩
          | cons q qs =>
            exfalso
            cases y with
            | nil => simp at hy
            | cons d ds =>
              simp only [List.head?_cons, Option.some.injEq] at hy
              subst hy
              simp only [List.nil_append, stripPre] at h
              split at h
              · next hq => apply hp; simp [hq]
              · cases h
        | cons d ds =>
          exact ih (d :: ds) (by simp) (fun hm => hp (List.mem_of_mem_tail hm)) h
      · cases h

/-- No match of the pattern starts inside a text without an opening, when a `[` follows. -/
theorem matchHere_none_of_hasOpening (c : Char) (cs y : Str)
    (h : hasOpening (c :: cs) = false) (hy : y.head? = some '[') :
    matchHere (c :: cs ++ y) = none := by
  cases hm : matchHere (c :: cs ++ y) with
  | none => rfl
  | some m =>
    exfalso
    obtain ⟨k, a, r⟩ := m
    obtain ⟨hk, e, _⟩ := matchHere_some _ _ _ _ hm
    simp only [hasOpening, Bool.or_eq_false_iff] at h
    rcases hk with rfl | rfl
    · have h1 : stripPre "[CQ:image".toList (c :: cs ++ y) = some (a ++ ']' :: r) := by
        rw [stripPre_eq_some_iff, e]; simp [segText]
      obtain ⟨u, hu⟩ := stripPre_append_left _ (c :: cs) y _ (by simp) hy (by decide) h1
      rw [hu] at h; simp at h
    · have h1 : stripPre "[CQ:record".toList (c :: cs ++ y) = some (a ++ ']' :: r) := by
        rw [stripPre_eq_some_iff, e]; simp [segText]
      obtain ⟨u, hu⟩ := stripPre_append_left _ (c :: cs) y _ (by simp) hy (by decide) h1
      rw [hu] at h; simp at h

/-- A text without an opening that stands before a `[` is copied through. -/
theorem ReplaceAllStringFuncAux_pre (f : Nat → Str → Str) (pre y : Str) (fuel : Nat)
    (h : hasOpening pre = false) (hy : y.head? = some '[') :
    ReplaceAllStringFuncAux f (pre.length + fuel) (pre ++ y) =
      pre ++ ReplaceAllStringFuncAux f fuel y := by
  induction pre with
  | nil => simp
  | cons c cs ih =>
    have h1 := matchHere_none_of_hasOpening c cs y h hy
    have h2 : hasOpening cs = false := by
      simp only [hasOpening, Bool.or_eq_false_iff] at h; exact h.2
    have e : (c :: cs).length + fuel = (cs.length + fuel) + 1 := by simp; omega
    rw [e]
    simp only [List.cons_append] at h1 ⊢
    simp only [ReplaceAllStringFuncAux, h1, ih h2]

theorem ReplaceAllStringFuncAux_match (f : Nat → Str → Str) (fuel : Nat) (s k a r : Str)
    (hm : matchHere s = some (k, a, r)) :
    ReplaceAllStringFuncAux f (fuel + 1) s =
      f r.length (segText k a) ++ ReplaceAllStringFuncAux f fuel r := by
  cases s with
  | nil => simp [matchHere, stripPre] at hm
  | cons c cs => simp [ReplaceAllStringFuncAux, hm]

/-- The rewriter on a text with one segment: `pre` holds no opening and `post` no match, so
only the segment is handed to the callback, at the tick `post.length`. -/
theorem ReplaceAllStringFunc_one (f : Nat → Str → Str) (pre post k a : Str)
    (hk : k = "image".toList ∨ k = "record".toList) (ha : ']' ∉ a)
    (hpre : hasOpening pre = false) (hpost : FindStringSubmatch post = []) :
    ReplaceAllStringFunc (pre ++ segText k a ++ post) f =
      pre ++ f post.length (segText k a) ++ post := by
  unfold ReplaceAllStringFunc
  have hhead : (segText k a ++ post).head? = some '[' := by simp [segText]
  obtain ⟨n, hn⟩ : ∃ n, (segText k a ++ post).length = n + 1 := ⟨_, by simp [segText]; rfl⟩
  have hm := matchHere_segText k a post hk ha
  rw [List.append_assoc, List.length_append,
    ReplaceAllStringFuncAux_pre f pre _ _ hpre hhead, hn,
    ReplaceAllStringFuncAux_match f n _ k a post hm,
    ReplaceAllStringFuncAux_noMatch f _ post hpost, List.append_assoc]

/-! ## the callback on a segment -/

theorem Split_of_not_mem (sep : Char) (s : Str) (h : sep ∉ s) : Split sep s = [s] := by
  induction s with
  | nil => rfl
  | cons c cs ih =>
    simp only [List.mem_cons, not_or] at h
    have hc : c ≠ sep := fun e => h.1 e.symm
    simp [Split, hc, ih h.2]

/-- The attributes written after `file` are the entries other than `file`, in the order of
the range. -/
theorem writeRest_eq (l : StrMap) :
    writeRest l = (l.filter (fun kv => decide (kv.1 ≠ "file".toList))).flatMap
      (fun kv => [','] ++ kv.1 ++ ['='] ++ kv.2) := by
  induction l with
  | nil => rfl
  | cons kv l ih =>
    obtain ⟨k, v⟩ := kv
    by_cases hk : k = "file".toList
    · simp [writeRest, hk, ih]
    · have hk2 : ¬ k = ['f', 'i', 'l', 'e'] := hk
      simp [writeRest, hk2, ih, List.filter_cons]

theorem writeRest_file_name (l : StrMap) (e n : Str)
    (h : l.Perm [("file".toList, e), ("name".toList, n)]) :
    writeRest l = ",name=".toList ++ n := by
  have h1 := h.filter (fun kv => decide (kv.1 ≠ "file".toList))
  have h2 : List.filter (fun kv => decide (kv.1 ≠ "file".toList))
      [("file".toList, e), ("name".toList, n)] = [("name".toList, n)] := by
    simp [List.filter_cons]
  rw [h2, List.perm_singleton] at h1
  rw [writeRest_eq, h1]
  simp

theorem parseArgs_file (f : Str) (hf : ',' ∉ f) :
    parseArgs (",file=".toList ++ f) = [("file".toList, TrimSpace f)] := by
  have h1 : TrimLeftComma (",file=".toList ++ f) = "file=".toList ++ f := by
    simp [TrimLeftComma, List.dropWhile]
  have h2 : Split ',' ("file=".toList ++ f) = ["file=".toList ++ f] :=
    Split_of_not_mem _ _ (by simp [hf])
  have h3 : SplitN2 '=' ("file=".toList ++ f) = ["file".toList, f] := by
    simp [SplitN2, cut]
  have h4 : TrimSpace "file".toList = "file".toList := by decide
  unfold parseArgs
  rw [h1, h2]
  simp only [List.foldl_cons, List.foldl_nil, setArg]
  rw [if_neg (by simp), h3]
  simp only [h4, mapSet]

/-- The callback on a segment `[CQ:k,file=f]` whose reference the resolver resolves to the
URL `u` with the name `n`: the rebuilt segment. -/
theorem rewriteSegment_file (w : World) (cfg : Config) (tick : Nat) (k f u lp n : Str)
    (hk : k = "image".toList ∨ k = "record".toList)
    (hf1 : ',' ∉ f) (hf2 : ']' ∉ f) (hf3 : TrimSpace f ≠ []) (hf4 : isHTTP (TrimSpace f) = false)
    (hr : uploadViaB w tick (TrimSpace f) [] cfg = (⟨u, lp⟩, n)) (hu : u ≠ []) (hn : n ≠ []) :
    rewriteSegment w cfg tick (segText k (",file=".toList ++ f)) =
      segText k (",file=".toList ++ escapeCommaMaybe u ++ ",name=".toList ++ n) := by
  have ha : ']' ∉ ",file=".toList ++ f := by simp [hf2]
  unfold rewriteSegment
  rw [FindStringSubmatch_segText k _ hk ha]
  simp only [parseArgs_file f hf1]
  have e1 : mapGet? [("file".toList, TrimSpace f)] "url".toList = none := by
    simp [mapGet?]
  have e2 : mapGet [("file".toList, TrimSpace f)] "file".toList = TrimSpace f := by
    simp [mapGet, mapGet?]
  have e3 : mapGet [("file".toList, TrimSpace f)] "name".toList = [] := by
    simp [mapGet, mapGet?]
  rw [e1, e2, e3]
  simp only [Bool.false_eq_true, if_false, if_neg hf3, hf4, hr, if_neg hu, ne_eq, hn,
    not_false_eq_true, if_true]
  have e4 : mapSet (mapSet [("file".toList, TrimSpace f)] "file".toList (escapeCommaMaybe u))
      "name".toList n = [("file".toList, escapeCommaMaybe u), ("name".toList, n)] := by
    simp [mapSet]
  rw [e4]
  unfold rebuild
  rw [writeRest_file_name _ _ _ (w.mapRange_perm tick _)]
  simp [mapGet?, segText]

/-! ## float64 and int64 -/

theorem stripTwos_spec (fuel m : Nat) (e : Int) :
    e ≤ (stripTwos fuel m e).2 ∧
      (stripTwos fuel m e).1 * 2 ^ ((stripTwos fuel m e).2 - e).toNat = m := by
  induction fuel generalizing m e with
  | zero => simp [stripTwos]
  | succ n ih =>
    unfold stripTwos
    split
    · next h =>
      obtain ⟨h1, h2⟩ := ih (m / 2) (e + 1)
      refine ⟨by omega, ?_⟩
      have e1 : ((stripTwos n (m / 2) (e + 1)).2 - e).toNat =
          ((stripTwos n (m / 2) (e + 1)).2 - (e + 1)).toNat + 1 := by omega
      rw [e1, pow_succ, ← mul_assoc, h2]
      omega
    · simp

/-- The float64 of an integer in the range of int64 converts back to that integer. -/
theorem int64OfFloat_ofInt (g : Int) (h1 : -(2 : Int) ^ 63 ≤ g) (h2 : g < (2 : Int) ^ 63) :
    int64OfFloat (F64.ofInt g) = g := by
  unfold F64.ofInt F64.norm
  by_cases h0 : g.natAbs = 0
  · have : g = 0 := by omega
    subst this
    simp [int64OfFloat, scaled]
  · rw [if_neg h0]
    obtain ⟨e1, e2⟩ := stripTwos_spec g.natAbs g.natAbs 0
    simp only [sub_zero] at e2
    have hv : scaled (stripTwos g.natAbs g.natAbs 0).1 2 (stripTwos g.natAbs g.natAbs 0).2
        = (g.natAbs, 1) := by
      simp only [scaled, if_pos e1, e2]
    simp only [int64OfFloat, hv, Nat.div_one]
    by_cases hg : g < 0
    · have e3 : -((g.natAbs : Nat) : Int) = g := by omega
      simp only [hg, decide_True, if_true, e3]
      rw [if_pos ⟨h1, h2⟩]
    · have e3 : ((g.natAbs : Nat) : Int) = g := by omega
      simp only [hg, decide_False, Bool.false_eq_true, if_false, e3]
      rw [if_pos ⟨h1, h2⟩]

/-! ## the branches of rewriteIfUpload -/

theorem rewriteIfUpload_send_private (w : World) (cfg : Config) (msg : Str) (cmd : oneBotCommand)
    (hcmd : unmarshalCommand msg = some cmd) (ha : cmd.Action = "send_private_msg".toList) :
    rewriteIfUpload w msg cfg =
      match unmarshalMap cmd.Params.marshal with
      | some p =>
        match assertString (mapGet? p "message".toList) with
        | some v =>
          if rewriteCQMediaInText w v cfg ≠ v then
            match assertFloat64 (mapGet? p "user_id".toList) with
            | .ok x =>
              .ok (oneBotCommand.marshal ⟨"send_private_msg".toList,
                .sendPrivate ⟨int64OfFloat x, rewriteCQMediaInText w v cfg⟩, cmd.Echo⟩)
            | .error e => .error e
          else .ok msg
        | none => .ok msg
      | none => .ok msg := by
  unfold rewriteIfUpload
  rw [hcmd]
  simp only [if_pos ha]

theorem rewriteIfUpload_send_group (w : World) (cfg : Config) (msg : Str) (cmd : oneBotCommand)
    (hcmd : unmarshalCommand msg = some cmd) (ha : cmd.Action = "send_group_msg".toList) :
    rewriteIfUpload w msg cfg =
      match unmarshalMap cmd.Params.marshal with
      | some p =>
        match assertString (mapGet? p "message".toList) with
        | some v =>
          if rewriteCQMediaInText w v cfg ≠ v then
            match assertFloat64 (mapGet? p "group_id".toList) with
            | .ok x =>
              .ok (oneBotCommand.marshal ⟨"send_group_msg".toList,
                .sendGroup ⟨int64OfFloat x, rewriteCQMediaInText w v cfg⟩, cmd.Echo⟩)
            | .error e => .error e
          else .ok msg
        | none => .ok msg
      | none => .ok msg := by
  have h1 : cmd.Action ≠ "send_private_msg".toList := by rw [ha]; decide
  unfold rewriteIfUpload
  rw [hcmd]
  simp only [if_neg h1, if_pos ha]

theorem rewriteIfUpload_upload_private (w : World) (cfg : Config) (msg : Str)
    (cmd : oneBotCommand) (hcmd : unmarshalCommand msg = some cmd)
    (ha : cmd.Action = "upload_private_file".toList) :
    rewriteIfUpload w msg cfg =
      match unmarshalUploadPrivate cmd.Params.marshal with
      | none => .ok msg
      | some p =>
        if (uploadViaB w 0 p.File p.Name cfg).1.LocalPath ≠ [] then
          .ok (oneBotCommand.marshal ⟨"upload_private_file".toList,
            .uploadPrivate ⟨p.UserID, (uploadViaB w 0 p.File p.Name cfg).1.LocalPath,
              (uploadViaB w 0 p.File p.Name cfg).2⟩, cmd.Echo⟩)
        else if (uploadViaB w 0 p.File p.Name cfg).1.URL ≠ [] then
          .ok (oneBotCommand.marshal ⟨"send_private_msg".toList,
            .sendPrivate ⟨p.UserID, fileCQ (uploadViaB w 0 p.File p.Name cfg).1.URL
              (uploadViaB w 0 p.File p.Name cfg).2⟩, cmd.Echo⟩)
        else .ok msg := by
  have h1 : cmd.Action ≠ "send_private_msg".toList := by rw [ha]; decide
  have h2 : cmd.Action ≠ "send_group_msg".toList := by rw [ha]; decide
  unfold rewriteIfUpload
  rw [hcmd]
  simp only [if_neg h1, if_neg h2, if_pos ha]

theorem rewriteIfUpload_upload_group (w : World) (cfg : Config) (msg : Str)
    (cmd : oneBotCommand) (hcmd : unmarshalCommand msg = some cmd)
    (ha : cmd.Action = "upload_group_file".toList) :
    rewriteIfUpload w msg cfg =
      match unmarshalUploadGroup cmd.Params.marshal with
      | none => .ok msg
      | some p =>
        if (uploadViaB w 0 p.File p.Name cfg).1.LocalPath ≠ [] then
          .ok (oneBotCommand.marshal ⟨"upload_group_file".toList,
            .uploadGroup ⟨p.GroupID, (uploadViaB w 0 p.File p.Name cfg).1.LocalPath,
              (uploadViaB w 0 p.File p.Name cfg).2⟩, cmd.Echo⟩)
        else if (uploadViaB w 0 p.File p.Name cfg).1.URL ≠ [] then
          .ok (oneBotCommand.marshal ⟨"send_group_msg".toList,
            .sendGroup ⟨p.GroupID, fileCQ (uploadViaB w 0 p.File p.Name cfg).1.URL
              (uploadViaB w 0 p.File p.Name cfg).2⟩, cmd.Echo⟩)
        else .ok msg := by
  have h1 : cmd.Action ≠ "send_private_msg".toList := by rw [ha]; decide
  have h2 : cmd.Action ≠ "send_group_msg".toList := by rw [ha]; decide
  have h3 : cmd.Action ≠ "upload_private_file".toList := by rw [ha]; decide
  unfold rewriteIfUpload
  rw [hcmd]
  simp only [if_neg h1, if_neg h2, if_neg h3, if_pos ha]

/-- The rewritten message of a text with one segment `[CQ:k,file=f]`. -/
theorem rewriteCQMediaInText_one (w : World) (cfg : Config) (pre post k f u lp n : Str)
    (hk : k = "image".toList ∨ k = "record".toList)
    (hf1 : ',' ∉ f) (hf2 : ']' ∉ f) (hf3 : TrimSpace f ≠ []) (hf4 : isHTTP (TrimSpace f) = false)
    (hpre : hasOpening pre = false) (hpost : FindStringSubmatch post = [])
    (hr : uploadViaB w post.length (TrimSpace f) [] cfg = (⟨u, lp⟩, n))
    (hu : u ≠ []) (hn : n ≠ []) :
    rewriteCQMediaInText w (pre ++ segText k (",file=".toList ++ f) ++ post) cfg =
      pre ++ segText k (",file=".toList ++ escapeCommaMaybe u ++ ",name=".toList ++ n) ++ post := by
  unfold rewriteCQMediaInText
  rw [ReplaceAllStringFunc_one _ pre post k _ hk (by simp [hf2]) hpre hpost,
    rewriteSegment_file w cfg _ k f u lp n hk hf1 hf2 hf3 hf4 hr hu hn]

theorem rewritten_ne (pre post k f e n : Str) (hf1 : ',' ∉ f) :
    pre ++ segText k (",file=".toList ++ e ++ ",name=".toList ++ n) ++ post ≠
      pre ++ segText k (",file=".toList ++ f) ++ post := by
  intro h
  simp only [segText, List.append_assoc, List.append_cancel_left_eq] at h
  have h2 : e ++ (",name=".toList ++ (n ++ ([']'] ++ post))) = f ++ ([']'] ++ post) := by
    simpa using h
  have h3 : (e ++ ",name=".toList ++ n) ++ ([']'] ++ post) = f ++ ([']'] ++ post) := by
    simpa [List.append_assoc] using h2
  rw [List.append_cancel_right_eq] at h3
  apply hf1
  rw [← h3]
  simp

/-! ## the claims -/

/-- C1: a frame that `json.Unmarshal` rejects, and a frame whose command has an action other
than `send_private_msg`, `send_group_msg`, `upload_private_file` and `upload_group_file`, is
returned unchanged by `rewriteIfUpload`, in every world (whatever the resolver would
answer). -/
theorem rewriteIfUpload_passthrough (w : World) (cfg : Config) (msg : Str)
    (h : ∀ cmd, unmarshalCommand msg = some cmd →
      cmd.Action ≠ "send_private_msg".toList ∧ cmd.Action ≠ "send_group_msg".toList ∧
      cmd.Action ≠ "upload_private_file".toList ∧ cmd.Action ≠ "upload_group_file".toList) :
    rewriteIfUpload w msg cfg = .ok msg := by
  unfold rewriteIfUpload
  cases hc : unmarshalCommand msg with
  | none => rfl
  | some cmd =>
    obtain ⟨h1, h2, h3, h4⟩ := h cmd hc
    simp only [if_neg h1, if_neg h2, if_neg h3, if_neg h4]

/-- Witness for C1: the text `ping` is not JSON, and the frame
`{"action":"get_status","echo":1}` has an unrecognised action; both come back unchanged. -/
theorem rewriteIfUpload_passthrough_witness :
    rewriteIfUpload cdnWorld "ping".toList emptyConfig = .ok "ping".toList ∧
    rewriteIfUpload cdnWorld "\x7b\"action\":\"get_status\",\"echo\":1\x7d".toList emptyConfig
      = .ok "\x7b\"action\":\"get_status\",\"echo\":1\x7d".toList := by
  constructor
  · apply rewriteIfUpload_passthrough
    intro cmd hc
    have h0 : (unmarshalCommand "ping".toList).isSome = false := by decide!
    rw [hc] at h0
    exact absurd h0 (by simp)
  · apply rewriteIfUpload_passthrough
    intro cmd hc
    have h0 : (unmarshalCommand "\x7b\"action\":\"get_status\",\"echo\":1\x7d".toList).map
        (fun c => c.Action) = some "get_status".toList := by decide!
    rw [hc] at h0
    simp only [Option.map_some', Option.some.injEq] at h0
    rw [h0]
    decide

/-- C2 (the code at the failing input): a `send_private_msg` frame without `user_id` whose
message holds an image segment that the resolver resolves does not come back unchanged:
the type assertion `p["user_id"].(float64)` panics. -/
theorem rewriteIfUpload_missing_user_id_panics :
    rewriteIfUpload cdnWorld
      "\x7b\"action\":\"send_private_msg\",\"params\":\x7b\"message\":\"[CQ:image,file=/tmp/a.png]\"\x7d\x7d".toList
      emptyConfig = .error .typeAssertion := by
  decide!

/-- C3 (amended): a `send_group_msg` (resp. `send_private_msg`) command whose `group_id`
(resp. `user_id`) decodes to the float64 of an integer `g` with `|g| ≤ 2^53`, and whose
message is `pre ++ "[CQ:k,file=f]" ++ post` with `k` image or record, `f` free of `,` and
`]` and, once trimmed, non-empty and not an http(s) URL, `pre` without an opening
`[CQ:image` / `[CQ:record` and `post` without a match of the pattern: when the resolver,
asked for the trimmed `f`, answers a non-empty URL `u` and a non-empty name `n`, the result
is the serialisation of the command with the same action, the recipient `g`, the message
`pre ++ "[CQ:k,file=" ++ escapeCommaMaybe u ++ ",name=" ++ n ++ "]" ++ post` and the
decoded echo. -/
theorem rewriteIfUpload_send_rewrites (w : World) (cfg : Config) (msg : Str)
    (cmd : oneBotCommand) (p : List (Str × Any)) (g : Int) (pre post k f u lp n : Str)
    (hcmd : unmarshalCommand msg = some cmd)
    (hp : unmarshalMap cmd.Params.marshal = some p)
    (hmsg : assertString (mapGet? p "message".toList) =
      some (pre ++ segText k (",file=".toList ++ f) ++ post))
    (hk : k = "image".toList ∨ k = "record".toList)
    (hf1 : ',' ∉ f) (hf2 : ']' ∉ f) (hf3 : TrimSpace f ≠ []) (hf4 : isHTTP (TrimSpace f) = false)
    (hpre : hasOpening pre = false) (hpost : FindStringSubmatch post = [])
    (hr : uploadViaB w post.length (TrimSpace f) [] cfg = (⟨u, lp⟩, n))
    (hu : u ≠ []) (hn : n ≠ [])
    (hg : -(2 : Int) ^ 53 ≤ g ∧ g ≤ (2 : Int) ^ 53) :
    (cmd.Action = "send_group_msg".toList →
      assertFloat64 (mapGet? p "group_id".toList) = .ok (F64.ofInt g) →
      rewriteIfUpload w msg cfg = .ok (oneBotCommand.marshal ⟨"send_group_msg".toList,
        .sendGroup ⟨g, pre ++
          segText k (",file=".toList ++ escapeCommaMaybe u ++ ",name=".toList ++ n) ++ post⟩,
        cmd.Echo⟩)) ∧
    (cmd.Action = "send_private_msg".toList →
      assertFloat64 (mapGet? p "user_id".toList) = .ok (F64.ofInt g) →
      rewriteIfUpload w msg cfg = .ok (oneBotCommand.marshal ⟨"send_private_msg".toList,
        .sendPrivate ⟨g, pre ++
          segText k (",file=".toList ++ escapeCommaMaybe u ++ ",name=".toList ++ n) ++ post⟩,
        cmd.Echo⟩)) := by
  have hnv := rewriteCQMediaInText_one w cfg pre post k f u lp n hk hf1 hf2 hf3 hf4 hpre hpost
    hr hu hn
  have hne := rewritten_ne pre post k f (escapeCommaMaybe u) n hf1
  have hi : int64OfFloat (F64.ofInt g) = g :=
    int64OfFloat_ofInt g (by omega) (by omega)
  constructor
  · intro ha hid
    rw [rewriteIfUpload_send_group w cfg msg cmd hcmd ha, hp]
    simp only [hmsg, hnv, hid, hi]
    rw [if_pos hne]
  · intro ha hid
    rw [rewriteIfUpload_send_private w cfg msg cmd hcmd ha, hp]
    simp only [hmsg, hnv, hid, hi]
    rw [if_pos hne]

set_option maxRecDepth 100000 in
theorem specFrame_decodes : unmarshalCommand specFrame = some specCommand := by rfl

set_option maxRecDepth 100000 in
theorem specParams_decode : unmarshalMap specCommand.Params.marshal = some specParams := by rfl

/-- Witness for C3: the example of the specification. The frame
`{"action":"send_group_msg","params":{"group_id":123,"message":"hi [CQ:image,file=/tmp/a.png]"},"echo":1}`,
with the resolver answering `https://cdn/x.png` / `a.png`, becomes
`{"action":"send_group_msg","params":{"group_id":123,"message":"hi [CQ:image,file=https://cdn/x.png,name=a.png]"},"echo":1}`. -/
theorem rewriteIfUpload_send_rewrites_witness :
    rewriteIfUpload cdnWorld specFrame emptyConfig = .ok specFrameOut := by
  have h := (rewriteIfUpload_send_rewrites cdnWorld emptyConfig specFrame specCommand specParams
    123 "hi ".toList [] "image".toList "/tmp/a.png".toList "https://cdn/x.png".toList []
    "a.png".toList specFrame_decodes specParams_decode (by decide) (Or.inl rfl) (by decide)
    (by decide) (by decide) (by decide) (by decide) (by decide) (by decide) (by decide)
    (by decide) (by decide)).1 (by decide) (by decide)
  rw [h]
  decide!

/-- C3 as stated fails: in
`{"action":"send_group_msg","params":{"group_id":123,"message":"hi [CQ:image,file= ]"},"echo":1}`
the reference `f` is one space (non-empty, not an http(s) URL, free of `,` and `]`) and the
resolver answers `https://cdn/x.png` / `a.png` to every request, yet the frame comes back
unchanged and not as the serialisation with the message
`hi [CQ:image,file=https://cdn/x.png,name=a.png]`: the reference is trimmed before it is
tested for emptiness. -/
theorem rewriteIfUpload_blank_file_unchanged :
    rewriteIfUpload cdnWorld blankFileFrame emptyConfig = .ok blankFileFrame ∧
    rewriteIfUpload cdnWorld blankFileFrame emptyConfig ≠ .ok specFrameOut := by
  decide!

/-- A reference that is already an http(s) URL is returned as the remote URL, with no local
path; it is not empty. -/
theorem uploadViaB_http (w : World) (tick : Nat) (file name : Str) (cfg : Config)
    (h : isHTTP file = true) :
    (uploadViaB w tick file name cfg).1 = ⟨file, []⟩ ∧ file ≠ [] := by
  constructor
  · unfold isHTTP at h
    unfold uploadViaB
    simp only [h, if_true]
  · rintro rfl
    simp [isHTTP, HasPrefix, stripPre] at h

/-- C4: upload downgrade. When the parameters of an `upload_private_file` (resp.
`upload_group_file`) command decode to `p` and the resolver answers `p.File` with a
non-empty URL `u`, an empty local path and the name `n`, the result is the serialisation of
a `send_private_msg` (resp. `send_group_msg`) command with the recipient `p.UserID` (resp.
`p.GroupID`), the message `"[CQ:file,file=" ++ escapeCommaMaybe u ++ ",name=" ++ n ++ "]"` and
the decoded echo. A reference that is already an http(s) URL is always answered so, with
`u` the reference itself. -/
theorem rewriteIfUpload_upload_downgrade (w : World) (cfg : Config) (msg : Str)
    (cmd : oneBotCommand) (hcmd : unmarshalCommand msg = some cmd) :
    (∀ (p : uploadPrivateFileParams) (u n : Str),
      cmd.Action = "upload_private_file".toList →
      unmarshalUploadPrivate cmd.Params.marshal = some p →
      uploadViaB w 0 p.File p.Name cfg = (⟨u, []⟩, n) → u ≠ [] →
      rewriteIfUpload w msg cfg = .ok (oneBotCommand.marshal ⟨"send_private_msg".toList,
        .sendPrivate ⟨p.UserID,
          "[CQ:file,file=".toList ++ escapeCommaMaybe u ++ ",name=".toList ++ n ++ [']']⟩,
        cmd.Echo⟩)) ∧
    (∀ (p : uploadGroupFileParams) (u n : Str),
      cmd.Action = "upload_group_file".toList →
      unmarshalUploadGroup cmd.Params.marshal = some p →
      uploadViaB w 0 p.File p.Name cfg = (⟨u, []⟩, n) → u ≠ [] →
      rewriteIfUpload w msg cfg = .ok (oneBotCommand.marshal ⟨"send_group_msg".toList,
        .sendGroup ⟨p.GroupID,
          "[CQ:file,file=".toList ++ escapeCommaMaybe u ++ ",name=".toList ++ n ++ [']']⟩,
        cmd.Echo⟩)) ∧
    (∀ (file name : Str), isHTTP file = true →
      ∃ n, uploadViaB w 0 file name cfg = (⟨file, []⟩, n) ∧ file ≠ []) := by
  refine ⟨?_, ?_, ?_⟩
  · intro p u n ha hp hr hu
    rw [rewriteIfUpload_upload_private w cfg msg cmd hcmd ha, hp]
    simp only [hr, ne_eq, not_true_eq_false, if_false, hu, not_false_eq_true, if_true, fileCQ]
  · intro p u n ha hp hr hu
    rw [rewriteIfUpload_upload_group w cfg msg cmd hcmd ha, hp]
    simp only [hr, ne_eq, not_true_eq_false, if_false, hu, not_false_eq_true, if_true, fileCQ]
  · intro file name h
    obtain ⟨h1, h2⟩ := uploadViaB_http w 0 file name cfg h
    exact ⟨(uploadViaB w 0 file name cfg).2, Prod.ext h1 rfl, h2⟩

set_option maxRecDepth 100000 in
theorem uploadURLFrame_decodes : unmarshalCommand uploadURLFrame = some uploadURLCommand := by
  rfl

/-- Witness for C4: the frame
`{"action":"upload_private_file","params":{"user_id":42,"file":"https://example.com/a,b.png","name":"doc.png"},"echo":"e1"}`
becomes
`{"action":"send_private_msg","params":{"user_id":42,"message":"[CQ:file,file=https://example.com/a%2Cb.png,name=doc.png]"},"echo":"e1"}`. -/
theorem rewriteIfUpload_upload_downgrade_witness :
    rewriteIfUpload failingWorld uploadURLFrame emptyConfig = .ok
      "\x7b\"action\":\"send_private_msg\",\"params\":\x7b\"user_id\":42,\"message\":\"[CQ:file,file=https://example.com/a%2Cb.png,name=doc.png]\"\x7d,\"echo\":\"e1\"\x7d".toList := by
  have h := (rewriteIfUpload_upload_downgrade failingWorld emptyConfig uploadURLFrame
    uploadURLCommand uploadURLFrame_decodes).1
    ⟨42, "https://example.com/a,b.png".toList, "doc.png".toList⟩
    "https://example.com/a,b.png".toList "doc.png".toList (by decide) (by decide!) (by decide)
    (by decide)
  rw [h]
  decide!

/-- C5: when the parameters of an `upload_private_file` (resp. `upload_group_file`) command
decode to `p` and the resolver answers `p.File` with a non-empty local path `lp` and the name
`n`, the result is the serialisation of a command with the same upload action, the recipient
`p.UserID` (resp. `p.GroupID`), `file = lp`, `name = n` and the decoded echo, whatever the
remote URL `u` of the answer; when the answer has neither a local path nor a URL, the frame
is returned unchanged. -/
theorem rewriteIfUpload_upload_local (w : World) (cfg : Config) (msg : Str)
    (cmd : oneBotCommand) (hcmd : unmarshalCommand msg = some cmd) :
    (∀ (p : uploadPrivateFileParams) (u lp n : Str),
      cmd.Action = "upload_private_file".toList →
      unmarshalUploadPrivate cmd.Params.marshal = some p →
      uploadViaB w 0 p.File p.Name cfg = (⟨u, lp⟩, n) →
      (lp ≠ [] → rewriteIfUpload w msg cfg = .ok (oneBotCommand.marshal
        ⟨"upload_private_file".toList, .uploadPrivate ⟨p.UserID, lp, n⟩, cmd.Echo⟩)) ∧
      (lp = [] → u = [] → rewriteIfUpload w msg cfg = .ok msg)) ∧
    (∀ (p : uploadGroupFileParams) (u lp n : Str),
      cmd.Action = "upload_group_file".toList →
      unmarshalUploadGroup cmd.Params.marshal = some p →
      uploadViaB w 0 p.File p.Name cfg = (⟨u, lp⟩, n) →
      (lp ≠ [] → rewriteIfUpload w msg cfg = .ok (oneBotCommand.marshal
        ⟨"upload_group_file".toList, .uploadGroup ⟨p.GroupID, lp, n⟩, cmd.Echo⟩)) ∧
      (lp = [] → u = [] → rewriteIfUpload w msg cfg = .ok msg)) := by
  refine ⟨?_, ?_⟩
  · intro p u lp n ha hp hr
    rw [rewriteIfUpload_upload_private w cfg msg cmd hcmd ha, hp]
    simp only [hr]
    refine ⟨fun h => by rw [if_pos h], fun h1 h2 => ?_⟩
    subst h1 h2
    simp
  · intro p u lp n ha hp hr
    rw [rewriteIfUpload_upload_group w cfg msg cmd hcmd ha, hp]
    simp only [hr]
    refine ⟨fun h => by rw [if_pos h], fun h1 h2 => ?_⟩
    subst h1 h2
    simp

set_option maxRecDepth 100000 in
theorem uploadPathFrame_decodes : unmarshalCommand uploadPathFrame = some uploadPathCommand := by
  rfl

/-- Witness for C5: for
`{"action":"upload_group_file","params":{"group_id":7,"file":"/tmp/report.pdf"},"echo":3}`,
an answer with the local path `/srv/uploads/x.png` (and a URL) gives
`{"action":"upload_group_file","params":{"group_id":7,"file":"/srv/uploads/x.png","name":"a.png"},"echo":3}`,
and a failed upload gives the frame back. -/
theorem rewriteIfUpload_upload_local_witness :
    rewriteIfUpload sharedWorld uploadPathFrame emptyConfig = .ok
      "\x7b\"action\":\"upload_group_file\",\"params\":\x7b\"group_id\":7,\"file\":\"/srv/uploads/x.png\",\"name\":\"a.png\"\x7d,\"echo\":3\x7d".toList ∧
    rewriteIfUpload failingWorld uploadPathFrame emptyConfig = .ok uploadPathFrame := by
  constructor
  · have h := ((rewriteIfUpload_upload_local sharedWorld emptyConfig uploadPathFrame
      uploadPathCommand uploadPathFrame_decodes).2 ⟨7, "/tmp/report.pdf".toList, []⟩
      "https://cdn/x.png".toList "/srv/uploads/x.png".toList "a.png".toList (by decide)
      (by decide!) (by decide)).1 (by decide)
    rw [h]
    decide!
  · exact ((rewriteIfUpload_upload_local failingWorld emptyConfig uploadPathFrame
      uploadPathCommand uploadPathFrame_decodes).2 ⟨7, "/tmp/report.pdf".toList, []⟩
      [] [] [] (by decide) (by decide!) (by decide)).2 rfl rfl

/-- C6 (amended): in every command that `rewriteIfUpload` serialises anew, the echo is the
serialisation of the value `json.Unmarshal` decoded from the echo of the frame (a Go
`interface{}`: nil for an absent or null echo, a float64 for a number): every result is the
frame itself, a panic, or `{"action":A,"params":P,"echo":E}` with `E = json.Marshal(cmd.Echo)`. -/
theorem rewriteIfUpload_echo (w : World) (cfg : Config) (msg : Str) (cmd : oneBotCommand)
    (hcmd : unmarshalCommand msg = some cmd) :
    rewriteIfUpload w msg cfg = .ok msg ∨ rewriteIfUpload w msg cfg = .error .typeAssertion ∨
    ∃ (action : Str) (params : Any), rewriteIfUpload w msg cfg = .ok
      (['{'] ++ encodeString "action".toList ++ [':'] ++ encodeString action ++ [','] ++
        encodeString "params".toList ++ [':'] ++ params.marshal ++ [','] ++
        encodeString "echo".toList ++ [':'] ++ cmd.Echo.marshal ++ ['}']) := by
  have key : ∀ (action : Str) (params : Any),
      oneBotCommand.marshal ⟨action, params, cmd.Echo⟩ =
      ['{'] ++ encodeString "action".toList ++ [':'] ++ encodeString action ++ [','] ++
        encodeString "params".toList ++ [':'] ++ params.marshal ++ [','] ++
        encodeString "echo".toList ++ [':'] ++ cmd.Echo.marshal ++ ['}'] := by
    intro action params
    simp [oneBotCommand.marshal, encodeObject, joinMembers]
  unfold rewriteIfUpload
  rw [hcmd]
  dsimp only
  split
  · split
    · split
      · split
        · split
          · exact Or.inr (Or.inr ⟨_, _, congrArg Except.ok (key _ _)⟩)
          · next e _ => cases e; exact Or.inr (Or.inl rfl)
        · exact Or.inl rfl
      · exact Or.inl rfl
    · exact Or.inl rfl
  · split
    · split
      · split
        · split
          · split
            · exact Or.inr (Or.inr ⟨_, _, congrArg Except.ok (key _ _)⟩)
            · next e _ => cases e; exact Or.inr (Or.inl rfl)
          · exact Or.inl rfl
        · exact Or.inl rfl
      · exact Or.inl rfl
    · split
      · split
        · exact Or.inl rfl
        · split
          · exact Or.inr (Or.inr ⟨_, _, congrArg Except.ok (key _ _)⟩)
          · split
            · exact Or.inr (Or.inr ⟨_, _, congrArg Except.ok (key _ _)⟩)
            · exact Or.inl rfl
      · split
        · split
          · exact Or.inl rfl
          · split
            · exact Or.inr (Or.inr ⟨_, _, congrArg Except.ok (key _ _)⟩)
            · split
              · exact Or.inr (Or.inr ⟨_, _, congrArg Except.ok (key _ _)⟩)
              · exact Or.inl rfl
        · exact Or.inl rfl

/-- Witness for C6: the example of the specification, whose result is serialised anew. -/
theorem rewriteIfUpload_echo_witness :
    rewriteIfUpload cdnWorld specFrame emptyConfig = .ok specFrame ∨
    rewriteIfUpload cdnWorld specFrame emptyConfig = .error .typeAssertion ∨
    ∃ (action : Str) (params : Any), rewriteIfUpload cdnWorld specFrame emptyConfig = .ok
      (['{'] ++ encodeString "action".toList ++ [':'] ++ encodeString action ++ [','] ++
        encodeString "params".toList ++ [':'] ++ params.marshal ++ [','] ++
        encodeString "echo".toList ++ [':'] ++ specCommand.Echo.marshal ++ ['}']) :=
  rewriteIfUpload_echo cdnWorld emptyConfig specFrame specCommand specFrame_decodes

/-- C6 as stated fails: the echo `9007199254740993` of
`{"action":"send_group_msg","params":{"group_id":123,"message":"hi [CQ:image,file=/tmp/a.png]"},"echo":9007199254740993}`
comes out as `9007199254740992`; the echo is decoded into a float64 and written from it. -/
theorem rewriteIfUpload_big_echo_changed :
    rewriteIfUpload cdnWorld bigEchoFrame emptyConfig = .ok
      "\x7b\"action\":\"send_group_msg\",\"params\":\x7b\"group_id\":123,\"message\":\"hi [CQ:image,file=https://cdn/x.png,name=a.png]\"\x7d,\"echo\":9007199254740992\x7d".toList := by
  decide!

/-! ### C7 -/

theorem allKept_of_suffix (w : World) (cfg : Config) (s t : Str) (h : allKept w cfg (s ++ t) = true) :
    allKept w cfg t = true := by
  induction s with
  | nil => simpa using h
  | cons c cs ih =>
    simp only [List.cons_append, allKept, Bool.and_eq_true] at h
    exact ih h.2

/-- The callback returns a segment as it is when one of the tests of `keepsSegment` holds. -/
theorem rewriteSegment_kept (w : World) (cfg : Config) (tick : Nat) (k a : Str)
    (hk : k = "image".toList ∨ k = "record".toList) (ha : ']' ∉ a)
    (h : keepsSegment w cfg tick a = true) :
    rewriteSegment w cfg tick (segText k a) = segText k a := by
  unfold rewriteSegment
  rw [FindStringSubmatch_segText k a hk ha]
  dsimp only
  unfold keepsSegment at h
  simp only [Bool.or_eq_true, decide_eq_true_eq] at h
  split
  · rfl
  · next h1 =>
    split
    · rfl
    · next h2 =>
      split
      · rfl
      · next h3 =>
        split
        · rfl
        · next h4 =>
          exfalso
          rcases h with ((h | h) | h) | h
          · exact h1 h
          · exact h2 h
          · exact h3 h
          · exact h4 h

theorem ReplaceAllStringFuncAux_kept (w : World) (cfg : Config) (fuel : Nat) (s : Str)
    (h : allKept w cfg s = true) :
    ReplaceAllStringFuncAux (rewriteSegment w cfg) fuel s = s := by
  induction fuel generalizing s with
  | zero => rfl
  | succ n ih =>
    cases s with
    | nil => rfl
    | cons c cs =>
      have h0 := h
      simp only [allKept, Bool.and_eq_true] at h
      cases hm : matchHere (c :: cs) with
      | none => simp only [ReplaceAllStringFuncAux, hm, ih cs h.2]
      | some m =>
        obtain ⟨k, a, r⟩ := m
        obtain ⟨hk, e, ha⟩ := matchHere_some _ _ _ _ hm
        have h1 : keepsSegment w cfg r.length a = true := by
          have := h.1
          rw [hm] at this
          exact this
        have h2 : allKept w cfg r = true := by
          rw [e] at h0
          exact allKept_of_suffix w cfg _ _ h0
        simp only [ReplaceAllStringFuncAux, hm, rewriteSegment_kept w cfg _ k a hk ha h1, ih r h2]
        exact e.symm

/-- C7: no-op equality. A text in which every match of the pattern passes one of the tests
that leave a segment as it is (a `url` attribute that is http(s), no non-empty `file`
attribute, a `file` that is http(s), no URL in the answer of the resolver) - in particular a
text without a match - is returned unchanged by `rewriteCQMediaInText`; and a
`send_private_msg` / `send_group_msg` frame whose message is such a text is returned
unchanged by `rewriteIfUpload`. -/
theorem rewriteCQMediaInText_noop (w : World) (cfg : Config) :
    (∀ text : Str, allKept w cfg text = true → rewriteCQMediaInText w text cfg = text) ∧
    (∀ (msg : Str) (cmd : oneBotCommand), unmarshalCommand msg = some cmd →
      (cmd.Action = "send_private_msg".toList ∨ cmd.Action = "send_group_msg".toList) →
      (∀ p v, unmarshalMap cmd.Params.marshal = some p →
        assertString (mapGet? p "message".toList) = some v → allKept w cfg v = true) →
      rewriteIfUpload w msg cfg = .ok msg) := by
  have h1 : ∀ text : Str, allKept w cfg text = true → rewriteCQMediaInText w text cfg = text :=
    fun text h => ReplaceAllStringFuncAux_kept w cfg _ text h
  refine ⟨h1, ?_⟩
  intro msg cmd hcmd ha hv
  rcases ha with ha | ha
  · rw [rewriteIfUpload_send_private w cfg msg cmd hcmd ha]
    split
    · next p hp =>
      split
      · next v hm => rw [h1 v (hv p v hp hm)]; simp
      · rfl
    · rfl
  · rw [rewriteIfUpload_send_group w cfg msg cmd hcmd ha]
    split
    · next p hp =>
      split
      · next v hm => rw [h1 v (hv p v hp hm)]; simp
      · rfl
    · rfl

set_option maxRecDepth 100000 in
theorem noUserFrame_decodes : unmarshalCommand noUserFrame = some noUserCommand := by rfl

set_option maxRecDepth 100000 in
theorem noUserParams_decode : unmarshalMap noUserCommand.Params.marshal =
    some [("message".toList, .string "[CQ:image,file=/tmp/a.png]".toList)] := by rfl

/-- Witness for C7: when every upload fails, the text
`a [CQ:image,file=https://h/y.png] b [CQ:record,url=http://u/v,file=/t.amr] [CQ:at,qq=1] [CQ:image,summary=x] [CQ:image,file=/tmp/a.png]`
and the frame `{"action":"send_private_msg","params":{"message":"[CQ:image,file=/tmp/a.png]"}}`
come back unchanged. -/
theorem rewriteCQMediaInText_noop_witness :
    rewriteCQMediaInText failingWorld keptText emptyConfig = keptText ∧
    rewriteIfUpload failingWorld noUserFrame emptyConfig = .ok noUserFrame := by
  constructor
  · exact (rewriteCQMediaInText_noop failingWorld emptyConfig).1 keptText (by decide)
  · apply (rewriteCQMediaInText_noop failingWorld emptyConfig).2 noUserFrame noUserCommand
      noUserFrame_decodes (Or.inl (by decide))
    intro p v hp hm
    rw [noUserParams_decode] at hp
    cases hp
    simp only [mapGet?, if_true, assertString, Option.some.injEq] at hm
    subst hm
    decide

/-! ### C8, C9: the code at the failing inputs -/

/-- C8 (the code at the failing input): the segment `[CQ:images,file=/tmp/a]`, whose kind is
neither `image` nor `record`, is matched by the pattern (as kind `image` with the attribute
text `s,file=/tmp/a`) and rewritten; the kind `images` is lost. -/
theorem rewriteCQMediaInText_images_rewritten :
    rewriteCQMediaInText cdnWorld "x [CQ:images,file=/tmp/a] y".toList emptyConfig =
      "x [CQ:image,file=https://cdn/x.png,name=a.png] y".toList := by
  decide

/-- C9 (the code at the failing inputs): a name with a comma is written as it is, both in a
rebuilt segment and in the `[CQ:file,...]` segment of a downgraded upload, so the attribute
list splits into three items where two attributes were written. -/
theorem name_comma_not_escaped :
    rewriteCQMediaInText commaNameWorld "[CQ:image,file=/tmp/a.png]".toList emptyConfig =
      "[CQ:image,file=https://cdn/x.png,name=a,b.png]".toList ∧
    Split ',' "file=https://cdn/x.png,name=a,b.png".toList =
      ["file=https://cdn/x.png".toList, "name=a".toList, "b.png".toList] ∧
    rewriteIfUpload failingWorld
      "\x7b\"action\":\"upload_private_file\",\"params\":\x7b\"user_id\":5,\"file\":\"http://h/x\",\"name\":\"a,b\"\x7d\x7d".toList
      emptyConfig = .ok
      "\x7b\"action\":\"send_private_msg\",\"params\":\x7b\"user_id\":5,\"message\":\"[CQ:file,file=http://h/x,name=a,b]\"\x7d,\"echo\":null\x7d".toList := by
  decide!

/-! ### C10: comma escaping read back -/

theorem escapeCommaMaybe_append (a b : Str) :
    escapeCommaMaybe (a ++ b) = escapeCommaMaybe a ++ escapeCommaMaybe b := by
  induction a with
  | nil => rfl
  | cons c cs ih =>
    by_cases h : c = ','
    · simp [escapeCommaMaybe, h, ih]
    · simp [escapeCommaMaybe, h, ih]

theorem not_mem_escapeCommaMaybe (u : Str) (x : Char) (hx : x ∉ u) (h1 : x ≠ '%')
    (h2 : x ≠ '2') (h3 : x ≠ 'C') : x ∉ escapeCommaMaybe u := by
  induction u with
  | nil => simp [escapeCommaMaybe]
  | cons c cs ih =>
    simp only [List.mem_cons, not_or] at hx
    by_cases h : c = ','
    · simp [escapeCommaMaybe, h, h1, h2, h3, ih hx.2]
    · simp [escapeCommaMaybe, h, hx.1, ih hx.2]

theorem comma_not_mem_escapeCommaMaybe (u : Str) : ',' ∉ escapeCommaMaybe u := by
  induction u with
  | nil => simp [escapeCommaMaybe]
  | cons c cs ih =>
    by_cases h : c = ','
    · simp [escapeCommaMaybe, h, ih]
    · simp only [escapeCommaMaybe, if_neg h, List.mem_cons, not_or]
      exact ⟨fun e => h e.symm, ih⟩

theorem escapeCommaMaybe_head (cs r : Str) (x : Char) (hx : x ≠ '%')
    (h : escapeCommaMaybe cs = x :: r) : ∃ t, cs = x :: t ∧ r = escapeCommaMaybe t := by
  cases cs with
  | nil => simp [escapeCommaMaybe] at h
  | cons c t =>
    by_cases hc : c = ','
    · simp only [escapeCommaMaybe, if_pos hc, List.cons.injEq] at h
      exact absurd h.1.symm hx
    · simp only [escapeCommaMaybe, if_neg hc, List.cons.injEq] at h
      exact ⟨t, by rw [h.1], h.2.symm⟩

/-- Unescaping undoes escaping on a text that holds no `%2C` of its own. -/
theorem unescapeComma_escapeCommaMaybe (u : Str) (h : hasEscapedComma u = false) :
    unescapeComma (escapeCommaMaybe u) = u := by
  induction u with
  | nil => rfl
  | cons c cs ih =>
    simp only [hasEscapedComma, Bool.or_eq_false_iff] at h
    by_cases hc : c = ','
    · subst hc
      simp only [escapeCommaMaybe, if_true]
      rw [unescapeComma, ih h.2]
    · simp only [escapeCommaMaybe, if_neg hc]
      rw [unescapeComma, ih h.2]
      intro rest e1 e2
      obtain ⟨t1, ht1, hr1⟩ := escapeCommaMaybe_head cs _ '2' (by decide) e2
      obtain ⟨t2, ht2, _⟩ := escapeCommaMaybe_head t1 _ 'C' (by decide) hr1.symm
      subst e1 ht1 ht2
      simp [stripPre] at h

theorem dropWhile_isSpace_eq_self (s : Str) :
    s.dropWhile isSpace = s ↔ s = [] ∨ ∃ c t, s = c :: t ∧ isSpace c = false := by
  cases s with
  | nil => simp
  | cons c t =>
    cases hc : isSpace c with
    | false => simp [List.dropWhile, hc]
    | true =>
      simp only [List.dropWhile, hc, false_or, List.cons.injEq, reduceCtorEq]
      constructor
      · intro h
        have := (List.dropWhile_suffix isSpace (l := t)).length_le
        rw [h] at this
        simp at this
      · rintro ⟨c', t', ⟨rfl, rfl⟩, h⟩
        rw [hc] at h; cases h

theorem rdropWhile_isSpace_eq_self (s : Str) :
    s.rdropWhile isSpace = s ↔ s = [] ∨ ∃ t c, s = t ++ [c] ∧ isSpace c = false := by
  rcases List.eq_nil_or_concat s with rfl | ⟨t, c, rfl⟩
  · simp
  · simp only [List.concat_eq_append]
    cases hc : isSpace c with
    | false =>
      rw [List.rdropWhile_concat_neg isSpace t c (by simp [hc])]
      simp only [true_iff]
      exact Or.inr ⟨t, c, rfl, hc⟩
    | true =>
      rw [List.rdropWhile_concat_pos isSpace t c hc]
      constructor
      · intro h
        have := (List.rdropWhile_prefix isSpace t).length_le
        rw [h] at this
        simp at this
      · rintro (h | ⟨t', c', h1, h2⟩)
        · simp at h
        · have := List.append_inj' h1 rfl
          simp only [List.cons.injEq, and_true] at this
          rw [← this.2, hc] at h2; cases h2

theorem TrimSpace_eq_self_iff (s : Str) :
    TrimSpace s = s ↔ s.dropWhile isSpace = s ∧ s.rdropWhile isSpace = s := by
  have e : TrimSpace s = (s.dropWhile isSpace).rdropWhile isSpace := rfl
  constructor
  · intro h
    have h1 := (List.rdropWhile_prefix isSpace (s.dropWhile isSpace)).length_le
    have h2 := (List.dropWhile_suffix isSpace (l := s)).length_le
    rw [← e, h] at h1
    have h3 : s.dropWhile isSpace = s :=
      (List.dropWhile_suffix isSpace (l := s)).eq_of_length (by omega)
    refine ⟨h3, ?_⟩
    rw [e, h3] at h
    exact h
  · rintro ⟨h1, h2⟩
    rw [e, h1, h2]

theorem TrimSpace_idem (s : Str) : TrimSpace (TrimSpace s) = TrimSpace s := by
  have e : TrimSpace s = (s.dropWhile isSpace).rdropWhile isSpace := rfl
  rw [TrimSpace_eq_self_iff]
  refine ⟨?_, by rw [e, List.rdropWhile_idempotent]⟩
  rw [dropWhile_isSpace_eq_self]
  cases ht : TrimSpace s with
  | nil => exact Or.inl rfl
  | cons c t =>
    refine Or.inr ⟨c, t, rfl, ?_⟩
    have hp : (c :: t) <+: s.dropWhile isSpace := by
      rw [← ht, e]; exact List.rdropWhile_prefix isSpace _
    obtain ⟨r, hr⟩ := hp
    have hd := (dropWhile_isSpace_eq_self (s.dropWhile isSpace)).1
      (List.dropWhile_idempotent isSpace s)
    rcases hd with hd | ⟨c', t', hd, hc⟩
    · rw [hd] at hr; simp at hr
    · rw [hd] at hr
      simp only [List.cons_append, List.cons.injEq] at hr
      rw [hr.1]; exact hc

theorem mem_of_mem_TrimSpace (s : Str) (c : Char) (h : c ∈ TrimSpace s) : c ∈ s := by
  have e : TrimSpace s = (s.dropWhile isSpace).rdropWhile isSpace := rfl
  rw [e] at h
  exact (List.dropWhile_suffix isSpace).subset ((List.rdropWhile_prefix isSpace _).subset h)

/-- Escaping keeps a text free of white space at its ends. -/
theorem TrimSpace_escapeCommaMaybe (u : Str) (h : TrimSpace u = u) :
    TrimSpace (escapeCommaMaybe u) = escapeCommaMaybe u := by
  rw [TrimSpace_eq_self_iff] at h ⊢
  obtain ⟨h1, h2⟩ := h
  rw [dropWhile_isSpace_eq_self] at h1 ⊢
  rw [rdropWhile_isSpace_eq_self] at h2 ⊢
  constructor
  · rcases h1 with rfl | ⟨c, t, rfl, hc⟩
    · exact Or.inl rfl
    · by_cases hcc : c = ','
      · exact Or.inr ⟨'%', '2' :: 'C' :: escapeCommaMaybe t,
          by simp [escapeCommaMaybe, hcc], by decide⟩
      · exact Or.inr ⟨c, escapeCommaMaybe t, by simp [escapeCommaMaybe, hcc], hc⟩
  · rcases h2 with rfl | ⟨t, c, rfl, hc⟩
    · exact Or.inl rfl
    · by_cases hcc : c = ','
      · refine Or.inr ⟨escapeCommaMaybe t ++ ['%', '2'], 'C', ?_, by decide⟩
        simp [escapeCommaMaybe_append, escapeCommaMaybe, hcc]
      · exact Or.inr ⟨escapeCommaMaybe t, c, by simp [escapeCommaMaybe_append, escapeCommaMaybe, hcc], hc⟩

theorem mapGet?_mapSet_self (m : StrMap) (k v : Str) : mapGet? (mapSet m k v) k = some v := by
  induction m with
  | nil => simp [mapSet, mapGet?]
  | cons e m ih =>
    obtain ⟨k', v'⟩ := e
    by_cases h : k' = k
    · simp [mapSet, mapGet?, h]
    · simp [mapSet, mapGet?, h, ih]

theorem mapGet?_mapSet_ne (m : StrMap) (k v key : Str) (h : k ≠ key) :
    mapGet? (mapSet m k v) key = mapGet? m key := by
  induction m with
  | nil => simp [mapSet, mapGet?, h]
  | cons e m ih =>
    obtain ⟨k', v'⟩ := e
    by_cases h1 : k' = k
    · subst h1; simp [mapSet, mapGet?, h]
    · by_cases h2 : k' = key
      · subst h2; simp [mapSet, mapGet?, h1]
      · simp [mapSet, mapGet?, h1, h2, ih]

theorem mapSet_good (m : StrMap) (k v : Str) (hm : ∀ e ∈ m, GoodEntry e) (hkv : GoodEntry (k, v)) :
    ∀ e ∈ mapSet m k v, GoodEntry e := by
  induction m with
  | nil => intro e he; simp only [mapSet, List.mem_singleton] at he; rw [he]; exact hkv
  | cons e0 m ih =>
    obtain ⟨k', v'⟩ := e0
    intro e he
    by_cases h : k' = k
    · simp only [mapSet, if_pos h, List.mem_cons] at he
      rcases he with rfl | he
      · rw [h]; exact hkv
      · exact hm e (List.mem_cons_of_mem _ he)
    · simp only [mapSet, if_neg h, List.mem_cons] at he
      rcases he with rfl | he
      · exact hm _ (List.mem_cons_self _ _)
      · exact ih (fun e he => hm e (List.mem_cons_of_mem _ he)) e he

theorem cut_some (sep : Char) (s a b : Str) (h : cut sep s = some (a, b)) :
    s = a ++ sep :: b ∧ sep ∉ a := by
  induction s generalizing a with
  | nil => simp [cut] at h
  | cons c cs ih =>
    unfold cut at h
    split at h
    · next hc =>
      simp only [Option.some.injEq, Prod.mk.injEq] at h
      obtain ⟨rfl, rfl⟩ := h
      simp [hc]
    · next hc =>
      split at h
      · cases h
      · next a' b' hu =>
        simp only [Option.some.injEq, Prod.mk.injEq] at h
        obtain ⟨rfl, rfl⟩ := h
        obtain ⟨e1, e2⟩ := ih a' hu
        refine ⟨by simp [e1], ?_⟩
        simp only [List.mem_cons, not_or]
        exact ⟨fun e => hc e.symm, e2⟩

theorem cut_append (sep : Char) (a b : Str) (h : sep ∉ a) :
    cut sep (a ++ sep :: b) = some (a, b) := by
  induction a with
  | nil => simp [cut]
  | cons x xs ih =>
    simp only [List.mem_cons, not_or] at h
    have hx : x ≠ sep := fun e => h.1 e.symm
    simp [cut, hx, ih h.2]

theorem Split_mem (sep : Char) (s : Str) : ∀ i ∈ Split sep s, sep ∉ i ∧ ∀ c ∈ i, c ∈ s := by
  induction s with
  | nil => intro i hi; simp only [Split, List.mem_singleton] at hi; subst hi; simp
  | cons c cs ih =>
    intro i hi
    unfold Split at hi
    split at hi
    · simp only [List.mem_cons] at hi
      rcases hi with rfl | hi
      · simp
      · obtain ⟨h1, h2⟩ := ih i hi
        exact ⟨h1, fun x hx => List.mem_cons_of_mem _ (h2 x hx)⟩
    · next hc =>
      split at hi
      · simp only [List.mem_singleton] at hi
        subst hi
        simp only [List.mem_singleton]
        exact ⟨fun e => hc e.symm, fun x hx => by simp [hx]⟩
      · next hd tl hs =>
        simp only [List.mem_cons] at hi
        rcases hi with rfl | hi
        · obtain ⟨h1, h2⟩ := ih hd (by rw [hs]; exact List.mem_cons_self _ _)
          refine ⟨?_, ?_⟩
          · simp only [List.mem_cons, not_or]
            exact ⟨fun e => hc e.symm, h1⟩
          · intro x hx
            simp only [List.mem_cons] at hx ⊢
            rcases hx with rfl | hx
            · exact Or.inl rfl
            · exact Or.inr (h2 x hx)
        · obtain ⟨h1, h2⟩ := ih i (by rw [hs]; exact List.mem_cons_of_mem _ hi)
          exact ⟨h1, fun x hx => List.mem_cons_of_mem _ (h2 x hx)⟩

theorem Split_append_sep (sep : Char) (x y : Str) (h : sep ∉ x) :
    Split sep (x ++ sep :: y) = x :: Split sep y := by
  induction x with
  | nil => simp [Split]
  | cons c cs ih =>
    simp only [List.mem_cons, not_or] at h
    have hc : c ≠ sep := fun e => h.1 e.symm
    simp [Split, hc, ih h.2]

/-- Splitting a text written as `x,i₁,i₂,...` with comma-free items gives the items back. -/
theorem Split_items (x : Str) (items : List Str) (hx : ',' ∉ x) (hi : ∀ i ∈ items, ',' ∉ i) :
    Split ',' (x ++ items.flatMap (fun i => ',' :: i)) = x :: items := by
  induction items generalizing x with
  | nil => simp [Split_of_not_mem _ _ hx]
  | cons i rest ih =>
    simp only [List.flatMap_cons, List.cons_append]
    rw [Split_append_sep _ _ _ hx, ih i (hi i (List.mem_cons_self _ _))
      (fun j hj => hi j (List.mem_cons_of_mem _ hj))]

theorem setArg_good (m : StrMap) (kv : Str) (hm : ∀ e ∈ m, GoodEntry e)
    (h1 : ',' ∉ kv) (h2 : ']' ∉ kv) : ∀ e ∈ setArg m kv, GoodEntry e := by
  unfold setArg
  split
  · exact hm
  · unfold SplitN2
    cases hc : cut '=' kv with
    | none => exact hm
    | some p =>
      obtain ⟨a, b⟩ := p
      obtain ⟨e1, e2⟩ := cut_some _ _ _ _ hc
      have ha : ∀ c ∈ a, c ∈ kv := fun c hc => by rw [e1]; simp [hc]
      have hb : ∀ c ∈ b, c ∈ kv := fun c hc => by rw [e1]; simp [hc]
      apply mapSet_good m _ _ hm
      refine ⟨?_, ?_, ?_, ?_, ?_, TrimSpace_idem a⟩
      · exact fun h => h1 (ha _ (mem_of_mem_TrimSpace _ _ h))
      · exact fun h => h1 (hb _ (mem_of_mem_TrimSpace _ _ h))
      · exact fun h => h2 (ha _ (mem_of_mem_TrimSpace _ _ h))
      · exact fun h => h2 (hb _ (mem_of_mem_TrimSpace _ _ h))
      · exact fun h => e2 (mem_of_mem_TrimSpace _ _ h)

theorem foldl_setArg_good (items : List Str) (m : StrMap) (hm : ∀ e ∈ m, GoodEntry e)
    (hi : ∀ i ∈ items, ',' ∉ i ∧ ']' ∉ i) : ∀ e ∈ items.foldl setArg m, GoodEntry e := by
  induction items generalizing m with
  | nil => exact hm
  | cons i rest ih =>
    simp only [List.foldl_cons]
    exact ih _ (setArg_good m i hm (hi i (List.mem_cons_self _ _)).1
      (hi i (List.mem_cons_self _ _)).2) (fun j hj => hi j (List.mem_cons_of_mem _ hj))

/-- Every attribute parsed from an attribute text without `]` can be written and read
back. -/
theorem parseArgs_good (a : Str) (ha : ']' ∉ a) : ∀ e ∈ parseArgs a, GoodEntry e := by
  unfold parseArgs
  apply foldl_setArg_good _ _ (by simp)
  intro i hi
  obtain ⟨h1, h2⟩ := Split_mem ',' _ i hi
  refine ⟨h1, fun h => ha ?_⟩
  exact (List.dropWhile_suffix _).subset (h2 _ h)

theorem setArg_item (m : StrMap) (k v : Str) (h : GoodEntry (k, v)) :
    setArg m (k ++ '=' :: v) = mapSet m k (TrimSpace v) := by
  obtain ⟨_, _, _, _, h5, h6⟩ := h
  unfold setArg SplitN2
  rw [if_neg (by simp), cut_append _ _ _ h5]
  simp only [h6]

theorem foldl_setArg_items (items : StrMap) (m : StrMap) (key : Str)
    (hi : ∀ e ∈ items, GoodEntry e ∧ e.1 ≠ key) :
    mapGet? ((items.map (fun e => e.1 ++ '=' :: e.2)).foldl setArg m) key = mapGet? m key := by
  induction items generalizing m with
  | nil => rfl
  | cons e rest ih =>
    simp only [List.map_cons, List.foldl_cons]
    rw [ih _ (fun j hj => hi j (List.mem_cons_of_mem _ hj)),
      setArg_item m e.1 e.2 (hi e (List.mem_cons_self _ _)).1,
      mapGet?_mapSet_ne _ _ _ _ (hi e (List.mem_cons_self _ _)).2]

theorem flatMap_items (l : StrMap) :
    l.flatMap (fun kv => [','] ++ kv.1 ++ ['='] ++ kv.2) =
      (l.map (fun e => e.1 ++ '=' :: e.2)).flatMap (fun i => ',' :: i) := by
  induction l with
  | nil => rfl
  | cons e l ih =>
    simp only [List.flatMap_cons, List.map_cons, ih]
    simp

theorem goodEntry_file (v : Str) (h1 : ',' ∉ v) (h2 : ']' ∉ v) :
    GoodEntry ("file".toList, v) :=
  ⟨(by decide : ',' ∉ "file".toList), h1, (by decide : ']' ∉ "file".toList), h2,
    (by decide : '=' ∉ "file".toList), (by decide : TrimSpace "file".toList = "file".toList)⟩

theorem goodEntry_name (v : Str) (h1 : ',' ∉ v) (h2 : ']' ∉ v) :
    GoodEntry ("name".toList, v) :=
  ⟨(by decide : ',' ∉ "name".toList), h1, (by decide : ']' ∉ "name".toList), h2,
    (by decide : '=' ∉ "name".toList), (by decide : TrimSpace "name".toList = "name".toList)⟩

theorem not_mem_flatMap_items (l : StrMap) (x : Char) (h1 : x ≠ ',') (h2 : x ≠ '=')
    (hl : ∀ e ∈ l, x ∉ e.1 ∧ x ∉ e.2) :
    x ∉ l.flatMap (fun kv => [','] ++ kv.1 ++ ['='] ++ kv.2) := by
  simp only [List.mem_flatMap, not_exists, not_and]
  intro e he
  simp [h1, h2, (hl e he).1, (hl e he).2]

/-- Reading back a rebuilt segment gives the `file` value that was written, unescaped. -/
theorem readBackFile_rebuild (w : World) (tick : Nat) (k : Str) (args : StrMap) (e : Str)
    (hk : k = "image".toList ∨ k = "record".toList) (hargs : ∀ kv ∈ args, GoodEntry kv)
    (hfile : mapGet? args "file".toList = some e) (he1 : ',' ∉ e) (he2 : ']' ∉ e)
    (he3 : TrimSpace e = e) :
    readBackFile (rebuild w tick k args) = some (unescapeComma e) := by
  have hgood : ∀ kv ∈ List.filter (fun kv => decide (kv.1 ≠ "file".toList))
      (w.mapRange tick args), GoodEntry kv ∧ kv.1 ≠ "file".toList := by
    intro kv hkv
    rw [List.mem_filter] at hkv
    exact ⟨hargs kv ((w.mapRange_perm tick args).mem_iff.1 hkv.1), by simpa using hkv.2⟩
  have hfg : GoodEntry ("file".toList, e) := goodEntry_file e he1 he2
  have hreb : rebuild w tick k args = segText k (",file=".toList ++ e ++
      (List.filter (fun kv => decide (kv.1 ≠ "file".toList)) (w.mapRange tick args)).flatMap
        (fun kv => [','] ++ kv.1 ++ ['='] ++ kv.2)) := by
    unfold rebuild
    rw [hfile, writeRest_eq]
    simp [segText]
  have hbr : ']' ∉ ",file=".toList ++ e ++
      (List.filter (fun kv => decide (kv.1 ≠ "file".toList)) (w.mapRange tick args)).flatMap
        (fun kv => [','] ++ kv.1 ++ ['='] ++ kv.2) := by
    rw [List.mem_append, List.mem_append, not_or, not_or]
    refine ⟨⟨by decide, he2⟩, ?_⟩
    apply not_mem_flatMap_items _ _ (by decide) (by decide)
    intro kv hkv
    exact ⟨(hgood kv hkv).1.2.2.1, (hgood kv hkv).1.2.2.2.1⟩
  have htl : TrimLeftComma (",file=".toList ++ e ++
      (List.filter (fun kv => decide (kv.1 ≠ "file".toList)) (w.mapRange tick args)).flatMap
        (fun kv => [','] ++ kv.1 ++ ['='] ++ kv.2)) = ("file".toList ++ '=' :: e) ++
      ((List.filter (fun kv => decide (kv.1 ≠ "file".toList)) (w.mapRange tick args)).map
        (fun e => e.1 ++ '=' :: e.2)).flatMap (fun i => ',' :: i) := by
    rw [flatMap_items]
    simp [TrimLeftComma, List.dropWhile]
  rw [hreb]
  unfold readBackFile
  rw [FindStringSubmatch_segText k _ hk hbr]
  dsimp only
  unfold parseArgs
  rw [htl, Split_items _ _ (by simp [he1])
    (by
      intro i hi
      rw [List.mem_map] at hi
      obtain ⟨kv, hkv, rfl⟩ := hi
      have := (hgood kv hkv).1
      simp [this.1, this.2.1])]
  simp only [List.foldl_cons]
  have hget := foldl_setArg_items _ (setArg [] ("file".toList ++ '=' :: e)) "file".toList hgood
  rw [setArg_item [] _ _ hfg, he3] at hget
  rw [setArg_item [] _ _ hfg, he3]
  unfold mapGet
  rw [hget]
  simp [mapSet, mapGet?]

/-- The callback on a segment that reaches the resolver and is answered with a URL: the
rebuilt segment. -/
theorem rewriteSegment_rebuilt (w : World) (cfg : Config) (tick : Nat) (k a u lp n : Str)
    (hk : k = "image".toList ∨ k = "record".toList) (ha : ']' ∉ a)
    (hkeep : keepsSegment w cfg tick a = false)
    (hr : uploadViaB w tick (mapGet (parseArgs a) "file".toList)
      (mapGet (parseArgs a) "name".toList) cfg = (⟨u, lp⟩, n)) :
    rewriteSegment w cfg tick (segText k a) = rebuild w tick k
      (if n ≠ [] then
        mapSet (mapSet (parseArgs a) "file".toList (escapeCommaMaybe u)) "name".toList n
       else mapSet (parseArgs a) "file".toList (escapeCommaMaybe u)) := by
  unfold keepsSegment at hkeep
  rw [hr] at hkeep
  simp only [Bool.or_eq_false_iff, decide_eq_false_iff_not] at hkeep
  obtain ⟨⟨⟨h1, h2⟩, h3⟩, h4⟩ := hkeep
  unfold rewriteSegment
  rw [FindStringSubmatch_segText k a hk ha]
  dsimp only
  rw [h1, hr]
  simp only [Bool.false_eq_true, if_false, if_neg h2, h3, if_neg h4]

/-- C10 (amended): comma escaping read back. Let the callback reach the resolver for a
segment `[CQ:k` a `]` and let the answer be the URL `u` with the name `n`. If `u` has no
white space at its ends, no `]` and no `%2C` of its own (it may hold commas), and `n` has
no `,` and no `]`, then finding the attribute list of the rewritten segment with the
pattern, parsing it as `rewriteCQMediaInText` does and replacing every `%2C` of the `file`
value by `,` gives `u` back. -/
theorem rewriteCQMediaInText_file_roundtrip (w : World) (cfg : Config) (k a u lp n : Str)
    (hk : k = "image".toList ∨ k = "record".toList) (ha : ']' ∉ a)
    (hkeep : keepsSegment w cfg 0 a = false)
    (hr : uploadViaB w 0 (mapGet (parseArgs a) "file".toList)
      (mapGet (parseArgs a) "name".toList) cfg = (⟨u, lp⟩, n))
    (hu1 : TrimSpace u = u) (hu2 : ']' ∉ u) (hu3 : hasEscapedComma u = false)
    (hn1 : ',' ∉ n) (hn2 : ']' ∉ n) :
    readBackFile (rewriteCQMediaInText w (segText k a) cfg) = some u := by
  have h0 : rewriteCQMediaInText w (segText k a) cfg =
      rewriteSegment w cfg 0 (segText k a) := by
    have := ReplaceAllStringFunc_one (rewriteSegment w cfg) [] [] k a hk ha rfl rfl
    simpa [rewriteCQMediaInText] using this
  have hE1 := comma_not_mem_escapeCommaMaybe u
  have hE2 := not_mem_escapeCommaMaybe u ']' hu2 (by decide) (by decide) (by decide)
  have hE3 := TrimSpace_escapeCommaMaybe u hu1
  have hg0 := parseArgs_good a ha
  have hg1 := mapSet_good (parseArgs a) "file".toList (escapeCommaMaybe u) hg0
    (goodEntry_file _ hE1 hE2)
  have hf1 := mapGet?_mapSet_self (parseArgs a) "file".toList (escapeCommaMaybe u)
  have key : ∀ args : StrMap, (∀ kv ∈ args, GoodEntry kv) →
      mapGet? args "file".toList = some (escapeCommaMaybe u) →
      readBackFile (rebuild w 0 k args) = some u := by
    intro args hg hf
    rw [readBackFile_rebuild w 0 k args _ hk hg hf hE1 hE2 hE3,
      unescapeComma_escapeCommaMaybe u hu3]
  rw [h0, rewriteSegment_rebuilt w cfg 0 k a u lp n hk ha hkeep hr]
  by_cases hn : n = []
  · rw [if_neg (by simp [hn])]
    exact key _ hg1 hf1
  · rw [if_pos hn]
    apply key
    · exact mapSet_good _ _ _ hg1 (goodEntry_name n hn1 hn2)
    · rw [mapGet?_mapSet_ne _ _ _ _ (by decide)]
      exact hf1

/-- Witness for C10: the answer `https://cdn/a,b.png?x=1,2` to the segment
`[CQ:image,file=/tmp/a.png,type=flash]` is read back from the rewritten segment. -/
theorem rewriteCQMediaInText_file_roundtrip_witness :
    readBackFile (rewriteCQMediaInText commaURLWorld
      (segText "image".toList ",file=/tmp/a.png,type=flash".toList) emptyConfig) =
      some "https://cdn/a,b.png?x=1,2".toList :=
  rewriteCQMediaInText_file_roundtrip commaURLWorld emptyConfig "image".toList
    ",file=/tmp/a.png,type=flash".toList "https://cdn/a,b.png?x=1,2".toList [] "a.png".toList
    (Or.inl rfl) (by decide) (by decide) (by decide) (by decide) (by decide) (by decide)
    (by decide) (by decide)

/-- C10 as stated fails: the resolver answers the URL `https://cdn/a%2Cb.png`, the segment
`[CQ:image,file=/tmp/a.png]` is rewritten to
`[CQ:image,file=https://cdn/a%2Cb.png,name=a.png]`, and reading the file value back with
`%2C` replaced by `,` gives `https://cdn/a,b.png`, which is not the URL of the answer. -/
theorem escaped_url_not_recovered :
    (uploadViaB escapedURLWorld 0 "/tmp/a.png".toList [] emptyConfig).1.URL =
      "https://cdn/a%2Cb.png".toList ∧
    rewriteCQMediaInText escapedURLWorld "[CQ:image,file=/tmp/a.png]".toList emptyConfig =
      "[CQ:image,file=https://cdn/a%2Cb.png,name=a.png]".toList ∧
    readBackFile (rewriteCQMediaInText escapedURLWorld "[CQ:image,file=/tmp/a.png]".toList
      emptyConfig) = some "https://cdn/a,b.png".toList := by
  decide

/-! ## adequacy of the fuel and of the float64 model -/

theorem matchHere_rest_length (s k a r : Str) (h : matchHere s = some (k, a, r)) :
    r.length < s.length := by
  obtain ⟨_, e, _⟩ := matchHere_some _ _ _ _ h
  rw [e]
  simp only [segText, List.length_append, List.length_cons, List.length_nil]
  omega

/-- The scan never runs out of fuel: with at least `s.length` steps the result is the same,
however many more steps are allowed. -/
theorem ReplaceAllStringFuncAux_fuel (f : Nat → Str → Str) (n m : Nat) (s : Str)
    (hn : s.length ≤ n) (hm : s.length ≤ m) :
    ReplaceAllStringFuncAux f n s = ReplaceAllStringFuncAux f m s := by
  induction n generalizing m s with
  | zero =>
    have : s = [] := List.eq_nil_of_length_eq_zero (by omega)
    subst this
    cases m <;> rfl
  | succ n ih =>
    cases s with
    | nil => cases m <;> rfl
    | cons c cs =>
      cases m with
      | zero => simp at hm
      | succ m =>
        simp only [List.length_cons, Nat.add_le_add_iff_right] at hn hm
        cases hmt : matchHere (c :: cs) with
        | none => simp only [ReplaceAllStringFuncAux, hmt, ih m cs hn hm]
        | some p =>
          obtain ⟨k, a, r⟩ := p
          have hl := matchHere_rest_length _ _ _ _ hmt
          simp only [List.length_cons] at hl
          simp only [ReplaceAllStringFuncAux, hmt, ih m r (by omega) (by omega)]

/-- `ReplaceAllStringFunc` unfolds as the scan does: a match at the head is replaced and
the scan goes on after it, any other character is copied. -/
theorem ReplaceAllStringFunc_cons (f : Nat → Str → Str) (c : Char) (cs : Str) :
    ReplaceAllStringFunc (c :: cs) f =
      match matchHere (c :: cs) with
      | some (kind, args, rest) => f rest.length (segText kind args) ++ ReplaceAllStringFunc rest f
      | none => c :: ReplaceAllStringFunc cs f := by
  unfold ReplaceAllStringFunc
  cases hmt : matchHere (c :: cs) with
  | none => simp only [List.length_cons, ReplaceAllStringFuncAux, hmt]
  | some p =>
    obtain ⟨k, a, r⟩ := p
    have hl := matchHere_rest_length _ _ _ _ hmt
    simp only [List.length_cons] at hl
    simp only [List.length_cons, ReplaceAllStringFuncAux, hmt]
    rw [ReplaceAllStringFuncAux_fuel f cs.length r.length r (by omega) (le_refl _)]

theorem ilog2_spec (fuel n : Nat) (h1 : 1 ≤ n) (h2 : n ≤ fuel) :
    2 ^ ilog2 fuel n ≤ n ∧ n < 2 ^ (ilog2 fuel n + 1) := by
  induction fuel generalizing n with
  | zero => omega
  | succ f ih =>
    unfold ilog2
    split
    · simp only [pow_zero, zero_add, pow_one]
      omega
    · obtain ⟨e1, e2⟩ := ih (n / 2) (by omega) (by omega)
      rw [pow_succ, pow_succ]
      rw [pow_succ] at e2
      constructor <;> omega

theorem stripTwos_odd (fuel m : Nat) (e : Int) (h1 : m ≠ 0) (h2 : m ≤ fuel) :
    (stripTwos fuel m e).1 % 2 = 1 := by
  induction fuel generalizing m e with
  | zero => omega
  | succ f ih =>
    unfold stripTwos
    split
    · exact ih (m / 2) (e + 1) (by omega) (by omega)
    · next h =>
      simp only
      omega

theorem odd_mul_pow_unique (m1 m2 a b : Nat) (h1 : m1 % 2 = 1) (h2 : m2 % 2 = 1)
    (h : m1 * 2 ^ a = m2 * 2 ^ b) : m1 = m2 ∧ a = b := by
  induction a generalizing b with
  | zero =>
    cases b with
    | zero => simpa using h
    | succ b =>
      exfalso
      rw [pow_zero, mul_one, pow_succ, ← mul_assoc] at h
      generalize m2 * 2 ^ b = t at h
      omega
  | succ a ih =>
    cases b with
    | zero =>
      exfalso
      rw [pow_zero, mul_one, pow_succ, ← mul_assoc] at h
      generalize m1 * 2 ^ a = t at h
      omega
    | succ b =>
      rw [pow_succ, pow_succ, ← mul_assoc, ← mul_assoc] at h
      obtain ⟨e1, e2⟩ := ih b (Nat.eq_of_mul_eq_mul_right (by decide) h)
      exact ⟨e1, by rw [e2]⟩

/-- The normal form of a float64 depends on its value only. -/
theorem F64_norm_shift (neg : Bool) (m j : Nat) (e : Int) (hm : m ≠ 0) :
    F64.norm neg (m * 2 ^ j) (e - j) = F64.norm neg m e := by
  have hM : m * 2 ^ j ≠ 0 := Nat.mul_ne_zero hm (by positivity)
  unfold F64.norm
  rw [if_neg hM, if_neg hm]
  obtain ⟨a1, a2⟩ := stripTwos_spec (m * 2 ^ j) (m * 2 ^ j) (e - j)
  obtain ⟨b1, b2⟩ := stripTwos_spec m m e
  have o1 := stripTwos_odd (m * 2 ^ j) (m * 2 ^ j) (e - j) hM (le_refl _)
  have o2 := stripTwos_odd m m e hm (le_refl _)
  generalize stripTwos (m * 2 ^ j) (m * 2 ^ j) (e - j) = r1 at a1 a2 o1 ⊢
  generalize stripTwos m m e = r2 at b1 b2 o2 ⊢
  have key : r1.1 * 2 ^ (r1.2 - (e - j)).toNat = r2.1 * 2 ^ ((r2.2 - e).toNat + j) := by
    rw [a2, pow_add, ← mul_assoc, b2]
  obtain ⟨k1, k2⟩ := odd_mul_pow_unique _ _ _ _ o1 o2 key
  have k3 : r1.2 = r2.2 := by omega
  simp only [k1, k3]

theorem floorLog2_one (m : Nat) (hm : 1 ≤ m) : floorLog2 m 1 = (ilog2 m m : Int) := by
  obtain ⟨e1, _⟩ := ilog2_spec m m hm (le_refl _)
  have h0 : ilog2 1 1 = 0 := by decide
  unfold floorLog2
  simp only [h0, Nat.cast_zero, sub_zero, Int.natCast_nonneg, if_true, Int.toNat_ofNat, one_mul,
    decide_eq_true_eq]
  rw [if_pos e1]

/-- An integer literal of at most 53 bits is decoded without rounding. -/
theorem parseFloat64_int (neg : Bool) (m : Nat) (hm : m ≤ 2 ^ 53) :
    parseFloat64 neg m 0 = some (F64.norm neg m 0) := by
  unfold parseFloat64
  by_cases h0 : m = 0
  · simp [h0, F64.norm]
  · rw [if_neg h0]
    have hv : scaled m 10 0 = (m, 1) := by simp [scaled]
    obtain ⟨e1, e2⟩ := ilog2_spec m m (by omega) (le_refl _)
    have hL : ilog2 m m ≤ 53 := by
      by_contra hc
      have : (2 : Nat) ^ 54 ≤ 2 ^ ilog2 m m := Nat.pow_le_pow_right (by omega) (by omega)
      omega
    simp only [hv, floorLog2_one m (by omega)]
    have hmax : max ((ilog2 m m : Int) - 52) (-1074) = (ilog2 m m : Int) - 52 := by
      apply max_eq_left; omega
    rw [hmax]
    by_cases hc : ilog2 m m = 53
    · have hm2 : m = 2 ^ 53 := by
        rw [hc] at e1; omega
      subst hm2
      have hr : roundToUnit (2 ^ 53) 1 ((ilog2 (2 ^ 53) (2 ^ 53) : Int) - 52) = 2 ^ 52 := by
        rw [hc]; decide
      rw [hr, hc, if_neg (by omega)]
      have := F64_norm_shift neg (2 ^ 52) 1 1 (by decide)
      simpa using congrArg some this.symm
    · obtain ⟨j, hj⟩ : ∃ j : Nat, ilog2 m m + j = 52 := ⟨52 - ilog2 m m, by omega⟩
      have he : (ilog2 m m : Int) - 52 = 0 - (j : Int) := by omega
      have hr : roundToUnit m 1 (0 - (j : Int)) = m * 2 ^ j := by
        unfold roundToUnit
        by_cases hj0 : j = 0
        · subst hj0; simp [Nat.mod_one]
        · have : ¬ (0 : Int) ≤ 0 - (j : Int) := by omega
          simp [this, hj0, Nat.mod_one]
      rw [he, hr, if_neg (by omega), F64_norm_shift neg m j 0 h0]

/-- A JSON integer literal `g` with `|g| ≤ 2^53` is decoded into the float64 of `g`. -/
theorem toAny_int (g : Int) (h1 : -(2 : Int) ^ 53 ≤ g) (h2 : g ≤ (2 : Int) ^ 53) :
    (JSON.number ⟨decide (g < 0), g.natAbs, 0, true⟩).toAny = some (.float64 (F64.ofInt g)) := by
  have hm : g.natAbs ≤ 2 ^ 53 := by omega
  simp [JSON.toAny, parseFloat64_int _ _ hm, F64.ofInt]

/-! ### C11: uploadViaB on an http(s) reference -/

/-- `filepath.Base` never returns the empty string: the test `base != ""` of `uploadViaB`
cannot fail. -/
theorem filepathBase_ne_nil (path : Str) : filepathBase path ≠ [] := by
  unfold filepathBase
  split
  · simp
  · dsimp only
    split
    · simp
    · assumption

/-- On an http(s) reference `uploadViaB` asks no upload endpoint: the result is the
reference as the URL, no local path, and the suggested name when it is not empty; for an
empty suggested name it is `filepath.Base` of the parsed path unless that is `/`, and the
empty name when `url.Parse` fails. -/
theorem uploadViaB_http_name (w : World) (tick : Nat) (ref name : Str) (cfg : Config)
    (h : isHTTP ref = true) :
    uploadViaB w tick ref name cfg =
      (⟨ref, []⟩,
        if name = [] then
          match w.urlParsePath ref with
          | some upath => if filepathBase upath ≠ ['/'] then filepathBase upath else []
          | none => []
        else name) := by
  unfold isHTTP at h
  unfold uploadViaB
  simp only [h, if_true]
  by_cases hn : name = []
  · subst hn
    simp only [if_true]
    cases hp : w.urlParsePath ref with
    | none => rfl
    | some upath =>
      have := filepathBase_ne_nil upath
      by_cases hb : filepathBase upath = ['/']
      · simp [hb]
      · simp [this, hb]
  · simp only [if_neg hn]

/-- An http(s) reference whose parsed path is empty gets the name `.` when no name is
suggested. -/
theorem uploadViaB_http_empty_path (w : World) (tick : Nat) (ref : Str) (cfg : Config)
    (h : isHTTP ref = true) (hp : w.urlParsePath ref = some []) :
    uploadViaB w tick ref [] cfg = (⟨ref, []⟩, ['.']) := by
  have hb : filepathBase [] = ['.'] := by decide
  rw [uploadViaB_http_name w tick ref [] cfg h, hp]
  simp only [if_true, hb]
  rw [if_pos (by decide)]

/-- C11 (the code at the failing input): for the reference `http://example.com`, whose path
is empty, and no suggested name, `uploadViaB` returns the name `.` and not the empty name:
`filepath.Base("")` is `.`, which passes the test `base != "" && base != "/"`. The rest of
the claim holds on the neighbouring inputs: the reference comes back as the URL with no
local path, a path of only `/` derives no name, a longer path derives its last element, and
a suggested name is kept. -/
theorem uploadViaB_empty_path_named_dot :
    uploadViaB plainURLWorld 0 "http://example.com".toList [] emptyConfig =
      (⟨"http://example.com".toList, []⟩, ['.']) ∧
    uploadViaB plainURLWorld 0 "http://example.com/".toList [] emptyConfig =
      (⟨"http://example.com/".toList, []⟩, []) ∧
    uploadViaB plainURLWorld 0 "https://cdn.example.com/img/a.png?x=1".toList [] emptyConfig =
      (⟨"https://cdn.example.com/img/a.png?x=1".toList, []⟩, "a.png".toList) ∧
    uploadViaB plainURLWorld 0 "http://example.com".toList "doc.png".toList emptyConfig =
      (⟨"http://example.com".toList, []⟩, "doc.png".toList) := by
  decide

end Middleware
